import Mathlib

/-!
Verification development for the BART ridership example pipeline.

The development shallowly embeds the two source files of the repository:

* `src/pipeline/prep_dataset.py` — the `GraphReader` finite-state parser that
  turns an origin/destination ridership matrix into a canonical undirected
  weighted graph, plus the population-CSV loader.
* `src/pipeline/geohash_population.py` — the `GeohashEnumerator` breadth-first
  grid traversal and the windowed raster aggregation (`read_box` / `get_sum`).

Python data structures are modelled as follows: `dict` becomes an
insertion-ordered association list (`List (String × α)` with unique keys;
assignment updates the first matching entry in place, lookup finds the first
matching entry), `set` becomes a duplicate-free `List String`, `queue.Queue`
becomes a FIFO `List String`, exceptions become `Except` / `Option`, Python
`int` becomes `Int`, and raster sample values (floats in the source) are
idealised as exact rationals `ℚ`.  External collaborators (the geohash
neighbour computation, geohash bounds, the raster reader, the CSV reader and
the `int` / `float` builtins) are either parameters of the embedded functions
or small models of the builtin's documented behaviour.
-/

/-! ## Python dictionary model (insertion ordered association list) -/

/-- Python dict lookup `d[k]` / `d.get(k)`: the value of the first entry whose
key is `k` (an entry's key occurs at most once in any dict built by `py_set`). -/
def py_get? {α : Type} : List (String × α) → String → Option α
  | [], _ => none
  | p :: d, k => if p.1 = k then some p.2 else py_get? d k

/-- Python `d.get(k, dflt)`. -/
def py_get {α : Type} (d : List (String × α)) (k : String) (dflt : α) : α :=
  (py_get? d k).getD dflt

/-- Python dict assignment `d[k] = v`: update the value of the existing entry
for `k` in place (keeping its insertion position), otherwise append a new
entry at the end. -/
def py_set {α : Type} : List (String × α) → String → α → List (String × α)
  | [], k, v => [(k, v)]
  | p :: d, k, v => if p.1 = k then (k, v) :: d else p :: py_set d k v

/-- Python `dict(pairs)` (as produced by `dict(zip(keys, values))`): fold the
pairs into an insertion-ordered dict, later values overwriting earlier ones. -/
def py_dict {α : Type} (pairs : List (String × α)) : List (String × α) :=
  pairs.foldl (fun d p => py_set d p.1 p.2) []

/-- Python `d.keys()` in insertion order. -/
def py_keys {α : Type} (d : List (String × α)) : List String :=
  d.map Prod.fst

theorem py_keys_cons {α : Type} (p : String × α) (d : List (String × α)) :
    py_keys (p :: d) = p.1 :: py_keys d := rfl

theorem py_get?_set_self {α : Type} (d : List (String × α)) (k : String) (v : α) :
    py_get? (py_set d k v) k = some v := by
  induction d with
  | nil => simp [py_set, py_get?]
  | cons p d ih =>
    by_cases h : p.1 = k
    · simp [py_set, h, py_get?]
    · simp [py_set, h, py_get?, ih]

theorem py_get?_set_ne {α : Type} (d : List (String × α)) (k k' : String) (v : α)
    (h : k' ≠ k) : py_get? (py_set d k v) k' = py_get? d k' := by
  have hkk : ¬ (k = k') := fun h' => h h'.symm
  induction d with
  | nil => simp [py_set, py_get?, hkk]
  | cons p d ih =>
    by_cases hp : p.1 = k
    · have hp' : ¬ (p.1 = k') := by rw [hp]; exact hkk
      simp [py_set, hp, py_get?, hkk, hp']
    · by_cases hp' : p.1 = k'
      · simp [py_set, hp, py_get?, hp', h]
      · simp [py_set, hp, py_get?, hp', ih]

theorem py_keys_set {α : Type} (d : List (String × α)) (k : String) (v : α) :
    py_keys (py_set d k v) = if k ∈ py_keys d then py_keys d else py_keys d ++ [k] := by
  induction d with
  | nil => simp [py_set, py_keys]
  | cons p d ih =>
    by_cases h : p.1 = k
    · have hm : k ∈ py_keys (p :: d) := by
        rw [py_keys_cons, h]
        exact List.mem_cons_self _ _
      have hset : py_set (p :: d) k v = (k, v) :: d := by simp [py_set, h]
      rw [hset, if_pos hm, py_keys_cons, py_keys_cons, h]
    · have hset : py_set (p :: d) k v = p :: py_set d k v := by simp [py_set, h]
      have h' : ¬ (k = p.1) := fun h'' => h h''.symm
      rw [hset, py_keys_cons, ih, py_keys_cons]
      by_cases hm : k ∈ py_keys d
      · rw [if_pos hm, if_pos (List.mem_cons_of_mem _ hm)]
      · rw [if_neg hm, if_neg (by simp [h', hm]), List.cons_append]

theorem py_keys_set_nodup {α : Type} (d : List (String × α)) (k : String) (v : α)
    (h : (py_keys d).Nodup) : (py_keys (py_set d k v)).Nodup := by
  rw [py_keys_set]
  by_cases hm : k ∈ py_keys d
  · simpa [hm] using h
  · simp only [hm, if_false]
    simpa [List.nodup_append] using ⟨h, hm⟩

theorem mem_py_keys_set {α : Type} (d : List (String × α)) (k k' : String) (v : α) :
    k' ∈ py_keys (py_set d k v) ↔ k' ∈ py_keys d ∨ k' = k := by
  rw [py_keys_set]
  by_cases hm : k ∈ py_keys d
  · simp only [hm, if_true]
    constructor
    · exact fun h => Or.inl h
    · rintro (h | rfl)
      · exact h
      · exact hm
  · simp [hm]

theorem mem_of_py_get?_eq_some {α : Type} (d : List (String × α)) (k : String) (v : α)
    (h : py_get? d k = some v) : (k, v) ∈ d := by
  induction d with
  | nil => simp [py_get?] at h
  | cons p d ih =>
    obtain ⟨a, b⟩ := p
    by_cases ha : a = k
    · subst ha
      simp only [py_get?, if_pos rfl] at h
      injection h with h
      subst h
      exact List.mem_cons_self _ _
    · simp only [py_get?, ha, if_false, if_neg ha] at h
      exact List.mem_cons_of_mem _ (ih h)

theorem py_get?_isSome_of_mem_keys {α : Type} (d : List (String × α)) (k : String)
    (h : k ∈ py_keys d) : (py_get? d k).isSome := by
  induction d with
  | nil => simp [py_keys] at h
  | cons p d ih =>
    obtain ⟨a, b⟩ := p
    by_cases ha : a = k
    · simp [py_get?, ha]
    · rw [py_keys_cons] at h
      rcases List.mem_cons.mp h with h' | h'
      · exact absurd h'.symm ha
      · simp [py_get?, ha, ih h']

/-- In a dict with duplicate-free keys, filtering for one key yields exactly
the entry that lookup returns. -/
theorem filter_eq_singleton_of_nodup {α : Type} (d : List (String × α)) (k : String) (v : α)
    (hnd : (py_keys d).Nodup) (hget : py_get? d k = some v) :
    d.filter (fun e => e.1 == k) = [(k, v)] := by
  induction d with
  | nil => simp [py_get?] at hget
  | cons p d ih =>
    obtain ⟨a, b⟩ := p
    have hnd' : (py_keys d).Nodup := by
      rw [py_keys_cons] at hnd
      exact hnd.of_cons
    by_cases ha : a = k
    · subst ha
      simp only [py_get?, if_pos rfl] at hget
      injection hget with hbv
      subst hbv
      have hk : a ∉ py_keys d := by
        rw [py_keys_cons] at hnd
        exact (List.nodup_cons.mp hnd).1
      have hnone : d.filter (fun e => e.1 == a) = [] := by
        rw [List.filter_eq_nil_iff]
        intro e he
        simp only [beq_iff_eq]
        intro hek
        exact hk (by rw [← hek]; exact List.mem_map_of_mem Prod.fst he)
      simp [List.filter_cons, hnone]
    · simp only [py_get?, ha, if_false, if_neg ha] at hget
      simp [List.filter_cons, ha, ih hnd' hget]

/-! ## Python string helpers -/

/-- Python string comparison `a < b`, lexicographic on code points, as used by
`sorted`. -/
def py_chars_lt : List Char → List Char → Bool
  | [], [] => false
  | [], _ :: _ => true
  | _ :: _, [] => false
  | a :: as, b :: bs => if a < b then true else if b < a then false else py_chars_lt as bs

/-- Python `a < b` on strings. -/
def py_lt (a b : String) : Bool := py_chars_lt a.data b.data

/-- Python `sorted([a, b])`: a stable ascending sort of a two-element list
swaps the elements exactly when the second compares strictly below the first. -/
def sorted2 (a b : String) : String × String := if py_lt b a then (b, a) else (a, b)

theorem py_chars_lt_asymm (x y : List Char) (h : py_chars_lt x y = true) :
    py_chars_lt y x = false := by
  induction x generalizing y with
  | nil =>
    cases y with
    | nil => simp [py_chars_lt]
    | cons b bs => simp [py_chars_lt]
  | cons a as ih =>
    cases y with
    | nil => simp [py_chars_lt] at h
    | cons b bs =>
      by_cases hab : a < b
      · have hba : ¬ (b < a) := fun h' => absurd hab (asymm h')
        simp [py_chars_lt, hab, hba]
      · by_cases hba : b < a
        · simp [py_chars_lt, hab, hba] at h
        · simp only [py_chars_lt, hab, hba, if_false] at h ⊢
          exact ih bs h

theorem py_chars_lt_conn (x y : List Char) (hxy : py_chars_lt x y = false)
    (hyx : py_chars_lt y x = false) : x = y := by
  induction x generalizing y with
  | nil =>
    cases y with
    | nil => rfl
    | cons b bs => simp [py_chars_lt] at hxy
  | cons a as ih =>
    cases y with
    | nil => simp [py_chars_lt] at hyx
    | cons b bs =>
      by_cases hab : a < b
      · simp [py_chars_lt, hab] at hxy
      · by_cases hba : b < a
        · simp [py_chars_lt, hba, hab] at hyx
        · have : a = b := le_antisymm (not_lt.mp hba) (not_lt.mp hab)
          subst this
          simp only [py_chars_lt, hab, if_false, lt_irrefl] at hxy hyx
          rw [ih bs (by simpa using hxy) (by simpa using hyx)]

theorem sorted2_comm (a b : String) : sorted2 a b = sorted2 b a := by
  unfold sorted2
  by_cases hba : py_lt b a = true
  · have : py_lt a b = false := py_chars_lt_asymm _ _ hba
    simp [hba, this]
  · by_cases hab : py_lt a b = true
    · have : py_lt b a = false := py_chars_lt_asymm _ _ hab
      simp [hab, this]
    · have hd : a.data = b.data :=
        py_chars_lt_conn _ _ (by simpa [py_lt] using hab) (by simpa [py_lt] using hba)
      have heq : a = b := by
        cases a
        cases b
        exact congrArg String.mk hd
      simp [heq]

theorem sorted2_cases (a b : String) : sorted2 a b = (a, b) ∨ sorted2 a b = (b, a) := by
  unfold sorted2
  by_cases h : py_lt b a = true
  · right
    simp [h]
  · left
    simp [h]

/-- Python `s.split(sep)` on the character level: split at every occurrence of
the separator, so `n` separators yield `n + 1` pieces. -/
def py_split_chars (sep : Char) : List Char → List (List Char)
  | [] => [[]]
  | c :: rest =>
    if c = sep then [] :: py_split_chars sep rest
    else
      match py_split_chars sep rest with
      | [] => [[c]]
      | piece :: pieces => (c :: piece) :: pieces

/-- Python `key.split('\t')`. -/
def py_split_tab (s : String) : List String :=
  (py_split_chars '\t' s.data).map String.mk

/-- The string contains no tab character (the separator `_add_count` joins
canonical keys with). -/
def no_tab (s : String) : Prop := '\t' ∉ s.data

instance no_tab_decidable (s : String) : Decidable (no_tab s) :=
  inferInstanceAs (Decidable ('\t' ∉ s.data))

theorem py_split_chars_of_no_sep (sep : Char) (l : List Char) (h : sep ∉ l) :
    py_split_chars sep l = [l] := by
  induction l with
  | nil => rfl
  | cons c rest ih =>
    have hc : ¬ (c = sep) := fun h' => h (h' ▸ List.mem_cons_self _ _)
    have hr : sep ∉ rest := fun h' => h (List.mem_cons_of_mem _ h')
    simp [py_split_chars, hc, ih hr]

theorem py_split_chars_append (sep : Char) (l1 l2 : List Char) (h : sep ∉ l1) :
    py_split_chars sep (l1 ++ sep :: l2) = l1 :: py_split_chars sep l2 := by
  induction l1 with
  | nil => simp [py_split_chars]
  | cons c rest ih =>
    have hc : ¬ (c = sep) := fun h' => h (h' ▸ List.mem_cons_self _ _)
    have hr : sep ∉ rest := fun h' => h (List.mem_cons_of_mem _ h')
    simp [py_split_chars, hc, ih hr]

theorem py_split_tab_join (a b : String) (ha : no_tab a) (hb : no_tab b) :
    py_split_tab (a ++ "\t" ++ b) = [a, b] := by
  have hdata : (a ++ "\t" ++ b).data = a.data ++ '\t' :: b.data := by
    simp [String.data_append]
  rw [py_split_tab, hdata, py_split_chars_append _ _ _ ha,
    py_split_chars_of_no_sep _ _ hb]
  rfl

/-- Splitting a canonical key recovers the two joined strings: the join of
tab-free strings determines its parts. -/
theorem tab_join_inj (a b x y : String) (ha : no_tab a) (hx : no_tab x)
    (h : a ++ "\t" ++ b = x ++ "\t" ++ y) : a = x ∧ b = y := by
  have hd : a.data ++ '\t' :: b.data = x.data ++ '\t' :: y.data := by
    have := congrArg String.data h
    simpa [String.data_append] using this
  have key : ∀ (la lx : List Char), '\t' ∉ la → '\t' ∉ lx →
      ∀ (lb ly : List Char), la ++ '\t' :: lb = lx ++ '\t' :: ly → la = lx ∧ lb = ly := by
    intro la
    induction la with
    | nil =>
      intro lx _ hxm lb ly heq
      cases lx with
      | nil => simpa using heq
      | cons c cs =>
        simp only [List.nil_append, List.cons_append, List.cons.injEq] at heq
        exact absurd (heq.1 ▸ List.mem_cons_self _ _) hxm
    | cons c cs ih =>
      intro lx ham hxm lb ly heq
      cases lx with
      | nil =>
        simp only [List.nil_append, List.cons_append, List.cons.injEq] at heq
        exact absurd (heq.1.symm ▸ List.mem_cons_self _ _) ham
      | cons e es =>
        simp only [List.cons_append, List.cons.injEq] at heq
        obtain ⟨rfl, heq⟩ := heq
        have ham' : '\t' ∉ cs := fun h' => ham (List.mem_cons_of_mem _ h')
        have hxm' : '\t' ∉ es := fun h' => hxm (List.mem_cons_of_mem _ h')
        obtain ⟨h1, h2⟩ := ih es ham' hxm' lb ly heq
        exact ⟨by rw [h1], h2⟩
  obtain ⟨h1, h2⟩ := key a.data x.data ha hx b.data y.data hd
  constructor
  · cases a
    cases x
    exact congrArg String.mk h1
  · cases b
    cases y
    exact congrArg String.mk h2

/-- Python whitespace recognised by `str.strip()` (the ASCII cases). -/
def py_space (c : Char) : Bool :=
  c = ' ' || c = '\t' || c = '\n' || c = '\r' || c = '\x0b' || c = '\x0c'

/-- Python `s.strip()`: remove leading and trailing whitespace. -/
def py_strip (s : String) : String :=
  String.mk (((s.data.dropWhile py_space).reverse.dropWhile py_space).reverse)

/-- Python `s.replace(',', '')`: remove every comma. -/
def py_remove_commas (s : String) : String :=
  String.mk (s.data.filter (fun c => c != ','))

/-- Value of a non-empty all-digit character list, in base 10. -/
def digits_val? (l : List Char) : Option Nat :=
  if l = [] then none
  else if l.all (fun c => c.isDigit) then
    some (l.foldl (fun n c => 10 * n + (c.toNat - '0'.toNat)) 0)
  else none

/-- Model of the Python builtin `int(s)` for an already stripped literal: an
optional sign followed by at least one decimal digit (the underscore grouping
`int` would additionally accept never occurs in this pipeline's inputs). -/
def py_int? (s : String) : Option Int :=
  match s.data with
  | '-' :: rest => (digits_val? rest).map (fun n => -(n : Int))
  | '+' :: rest => (digits_val? rest).map (fun n => (n : Int))
  | l => (digits_val? l).map (fun n => (n : Int))

/-! ## The OD-matrix graph builder (`prep_dataset.py`) -/

/-- Automaton state constant `STATE_WAITING` (line 47). -/
def STATE_WAITING : Nat := 0

/-- Automaton state constant `STATE_READ_ORIGIN` (line 48). -/
def STATE_READ_ORIGIN : Nat := 1

/-- Automaton state constant `STATE_READ_ROW` (line 49). -/
def STATE_READ_ROW : Nat := 2

/-- Automaton state constant `STATE_END` (line 50). -/
def STATE_END : Nat := 3

/-- `GraphWeight` (lines 107-144): one undirected weighted edge. -/
structure GraphWeight where
  source : String
  destination : String
  count : Int
deriving DecidableEq

/-- The mutable state of a `GraphReader` (lines 158-168): the automaton state,
the parsed header (`None` until `READ_ORIGIN` fires) and the accumulator map
from canonical pair key to running count. -/
structure GraphReader where
  state : Nat
  origin_header : Option (List String)
  weights : List (String × Int)
deriving DecidableEq

/-- `GraphReader.__init__` (lines 158-168). -/
def GraphReader.init : GraphReader := ⟨STATE_WAITING, none, []⟩

/-- The canonical key of `_add_count`: `'\t'.join(sorted([source, destination]))`
(lines 240-241), written out for the two-element list. -/
def pair_key (source destination : String) : String :=
  (sorted2 source destination).1 ++ "\t" ++ (sorted2 source destination).2

/-- `GraphReader._add_count` (lines 230-243), acting on the `_weights` dict. -/
def add_count (weights : List (String × Int)) (source destination : String)
    (count : Int) : List (String × Int) :=
  py_set weights (pair_key source destination)
    (py_get weights (pair_key source destination) 0 + count)

/-- `GraphReader._make_output` (lines 245-257): split the canonical key back
into the two station codes. -/
def make_output (key : String) (count : Int) : GraphWeight :=
  ⟨(py_split_tab key).getD 0 "", (py_split_tab key).getD 1 "", count⟩

/-- The edge list `finish` materialises from an accumulator map (line 186-188). -/
def weights_output (w : List (String × Int)) : List GraphWeight :=
  w.map (fun x => make_output x.1 x.2)

/-- The loop of `_on_read_row` (lines 218-220): accumulate the parsed count of
each listed source column, failing on the first unparsable cell (`int` raises
`ValueError`; earlier iterations keep their effect inside Python, but a raise
aborts the whole parse so the partially mutated accumulator is unobservable). -/
def accum_sources (row : List (String × String)) (destination : String) :
    List String → List (String × Int) → Except String (List (String × Int))
  | [], weights => Except.ok weights
  | source :: rest, weights =>
    match py_get? row source with
    | none => Except.error "KeyError"
    | some v =>
      match py_int? (py_remove_commas (py_strip v)) with
      | none => Except.error "ValueError"
      | some count =>
        accum_sources row destination rest (add_count weights source destination count)

/-- `GraphReader._on_wait` (lines 190-196). -/
def on_wait (r : GraphReader) (_line : List String) : Except String GraphReader :=
  Except.ok { r with state := STATE_READ_ORIGIN }

/-- `GraphReader._on_read_origin` (lines 198-206): keep the header line with
its first column renamed to the sentinel `'exit'`; an empty header line makes
the index assignment `header[0] = 'exit'` fail. -/
def on_read_origin (r : GraphReader) (line : List String) : Except String GraphReader :=
  match line with
  | [] => Except.error "IndexError"
  | _first :: rest =>
    Except.ok { r with origin_header := some ("exit" :: rest), state := STATE_READ_ROW }

/-- The accumulator update of `_on_read_row` (lines 208-220): zip the line
against the header (Python `zip` truncates to the shorter of the two), read
the row's own station code from the sentinel column, and accumulate every
other column that is not the row's own code. -/
def read_row_core (header line : List String) (w : List (String × Int)) :
    Except String (List (String × Int)) :=
  let row := py_dict (header.zip line)
  match py_get? row "exit" with
  | none => Except.error "KeyError"
  | some destination =>
    let sources := (py_keys row).filter (fun x => x != "exit")
    let sources_allowed := sources.filter (fun x => x != destination)
    accum_sources row destination sources_allowed w

/-- `GraphReader._on_read_row` (lines 208-220), as a state transformer: run
the accumulator update on `_weights` (a missing header would make the `zip`
call raise a `TypeError`). -/
def on_read_row (r : GraphReader) (line : List String) : Except String GraphReader :=
  match r.origin_header with
  | none => Except.error "TypeError"
  | some header =>
    (read_row_core header line r.weights).map (fun w => { r with weights := w })

/-- `GraphReader._on_end` (lines 222-228). -/
def on_end (_r : GraphReader) (_line : List String) : Except String GraphReader :=
  Except.error "Asked to iterate on finalized reader."

/-- `GraphReader.step` (lines 170-176): dispatch through the `_strategies`
table on the current state (`STATE_WAITING = 0`, `STATE_READ_ORIGIN = 1`,
`STATE_READ_ROW = 2`, `STATE_END = 3`; a state outside the table would raise
`KeyError`, but every reachable state is in the table). -/
def GraphReader.step (r : GraphReader) (line : List String) : Except String GraphReader :=
  match r.state with
  | 0 => on_wait r line
  | 1 => on_read_origin r line
  | 2 => on_read_row r line
  | 3 => on_end r line
  | _ => Except.error "KeyError"

/-- `GraphReader.finish` (lines 178-188): set the state to `END` and
materialise the accumulator, in insertion order, as `GraphWeight`s.  The
returned pair is the produced edge list together with the mutated reader. -/
def GraphReader.finish (r : GraphReader) : List GraphWeight × GraphReader :=
  (weights_output r.weights, { r with state := STATE_END })

/-- Feed a whole sequence of CSV rows to a reader, as `load_ridership_data`
does (lines 368-384). -/
def run_reader : GraphReader → List (List String) → Except String GraphReader
  | r, [] => Except.ok r
  | r, line :: rest =>
    match r.step line with
    | Except.error e => Except.error e
    | Except.ok r2 => run_reader r2 rest

/-- A sequence of direct `_add_count` calls `(source, destination, count)`
run against an initially empty accumulator. -/
def run_add_counts (calls : List (String × String × Int)) : List (String × Int) :=
  calls.foldl (fun w c => add_count w c.1 c.2.1 c.2.2) []

theorem GraphReader.step_at_waiting (r : GraphReader) (line : List String)
    (h : r.state = STATE_WAITING) : r.step line = on_wait r line := by
  rcases r with ⟨s, oh, w⟩
  have h' : s = STATE_WAITING := h
  subst h'
  rfl

theorem GraphReader.step_at_read_origin (r : GraphReader) (line : List String)
    (h : r.state = STATE_READ_ORIGIN) : r.step line = on_read_origin r line := by
  rcases r with ⟨s, oh, w⟩
  have h' : s = STATE_READ_ORIGIN := h
  subst h'
  rfl

theorem GraphReader.step_at_read_row (r : GraphReader) (line : List String)
    (h : r.state = STATE_READ_ROW) : r.step line = on_read_row r line := by
  rcases r with ⟨s, oh, w⟩
  have h' : s = STATE_READ_ROW := h
  subst h'
  rfl

theorem GraphReader.step_at_end (r : GraphReader) (line : List String)
    (h : r.state = STATE_END) : r.step line = on_end r line := by
  rcases r with ⟨s, oh, w⟩
  have h' : s = STATE_END := h
  subst h'
  rfl

/-- C7: after `finish`, every further `step` call, with any line, dispatches
to `_on_end` and raises the protocol-violation `RuntimeError`; it never
accepts or accumulates more data (the reader is unchanged by the failed
call, so every later `step` fails the same way). -/
theorem step_after_finish_errors (r : GraphReader) (line : List String) :
    (r.finish.2).step line = Except.error "Asked to iterate on finalized reader." := by
  have h : (r.finish.2).state = STATE_END := rfl
  rw [GraphReader.step_at_end _ _ h]
  rfl

/-- C8: a second `finish` on the reader returned by `finish` yields the same
edge list and the same reader state: finalisation is idempotent and the
second call changes nothing observable. -/
theorem finish_idempotent (r : GraphReader) : (r.finish.2).finish = r.finish := rfl

/-- The parse of one matrix cell of `_on_read_row`: look the column up in the
row dict, then `int(value.strip().replace(',', ''))`. -/
def parsed_cell (row : List (String × String)) (source : String) : Option Int :=
  (py_get? row source).bind (fun v => py_int? (py_remove_commas (py_strip v)))

/-- Parse every listed column of a row, `none` as soon as one cell fails. -/
def parse_cells (row : List (String × String)) : List String → Option (List Int)
  | [] => some []
  | s :: rest =>
    match parsed_cell row s with
    | none => none
    | some c => (parse_cells row rest).map (fun cs => c :: cs)

/-- The columns `_on_read_row` iterates over: every key of the row record
other than the sentinel `'exit'` and other than the row's own station code. -/
def allowed_columns (row : List (String × String)) (destination : String) : List String :=
  ((py_keys row).filter (fun x => x != "exit")).filter (fun x => x != destination)

/-- The accumulator resulting from adding each (column, parsed count) pair of
one data row against the row's own station code. -/
def row_weights (destination : String) (src : List String) (counts : List Int)
    (w0 : List (String × Int)) : List (String × Int) :=
  (src.zip counts).foldl (fun w p => add_count w p.1 destination p.2) w0

theorem accum_sources_ok (row : List (String × String)) (destination : String)
    (src : List String) (counts : List Int) (w : List (String × Int))
    (h : parse_cells row src = some counts) :
    accum_sources row destination src w =
      Except.ok (row_weights destination src counts w) := by
  induction src generalizing counts w with
  | nil =>
    simp only [parse_cells, Option.some.injEq] at h
    subst h
    simp [accum_sources, row_weights]
  | cons s rest ih =>
    simp only [parse_cells] at h
    cases hc : parsed_cell row s with
    | none => rw [hc] at h; simp at h
    | some c =>
      rw [hc] at h
      cases hr : parse_cells row rest with
      | none => rw [hr] at h; simp at h
      | some cs =>
        rw [hr] at h
        have h' : c :: cs = counts := by simpa using h
        subst h'
        cases hv : py_get? row s with
        | none => simp [parsed_cell, hv] at hc
        | some v =>
          have hint : py_int? (py_remove_commas (py_strip v)) = some c := by
            simpa [parsed_cell, hv] using hc
          simp only [accum_sources, hv, hint]
          rw [ih _ _ hr]
          rfl

/-- C6: in the `READ_ROW` state, a data row accumulates exactly the columns of
the zipped row record whose key differs from the sentinel `'exit'` and from
the row's own station code; each such cell is parsed by stripping whitespace,
removing comma separators and reading a decimal integer, and is accumulated
into the pair (column station, row's own station). -/
theorem read_row_accumulates (r : GraphReader) (header line : List String)
    (destination : String) (counts : List Int)
    (hs : r.state = STATE_READ_ROW)
    (hh : r.origin_header = some header)
    (hd : py_get? (py_dict (header.zip line)) "exit" = some destination)
    (hc : parse_cells (py_dict (header.zip line))
        (allowed_columns (py_dict (header.zip line)) destination) = some counts) :
    r.step line = Except.ok { r with weights := row_weights destination (allowed_columns (py_dict (header.zip line)) destination) counts r.weights } := by
  rw [GraphReader.step_at_read_row _ _ hs]
  simp only [on_read_row, read_row_core, hh, hd]
  rw [accum_sources_ok _ _ _ _ _ (by simpa [allowed_columns] using hc)]
  simp [allowed_columns, Except.map]

/-- Witness for C6: a three-column header with a two-column body row, one cell
carrying whitespace and a comma separator. -/
theorem read_row_accumulates_witness :
    GraphReader.step ⟨STATE_READ_ROW, some ["exit", "aa", "bb"], []⟩ ["cc", " 1,200", "7"]
      = Except.ok ⟨STATE_READ_ROW, some ["exit", "aa", "bb"],
          [("aa\tcc", 1200), ("bb\tcc", 7)]⟩ := by
  rw [read_row_accumulates _ ["exit", "aa", "bb"] _ "cc" [1200, 7] rfl rfl (by rfl) (by rfl)]
  rfl

theorem zip_take_len {α β : Type} (l1 : List α) (l2 : List β) :
    l1.zip l2 = (l1.take l2.length).zip l2 := by
  induction l1 generalizing l2 with
  | nil => simp
  | cons a as ih =>
    cases l2 with
    | nil => simp
    | cons b bs =>
      simp only [List.zip_cons_cons, List.length_cons, List.take_succ_cons]
      exact congrArg _ (ih bs)

/-- C9 (amended): in the `READ_ROW` state a data row with fewer values than
the header is not rejected: `zip` truncation pairs each value positionally
with its own header column and silently ignores the surplus header columns,
so the observable accumulation equals that of a reader whose header is cut to
the row's length (values are never misaligned); only a completely empty data
row fails, with a `KeyError` on the missing sentinel column. -/
theorem short_row_truncates (r : GraphReader) (header line : List String)
    (hs : r.state = STATE_READ_ROW) (hh : r.origin_header = some header) :
    (line = [] → r.step line = Except.error "KeyError")
    ∧ Except.map (fun x => x.weights) (r.step line)
      = read_row_core (header.take line.length) line r.weights := by
  have hcore : read_row_core header line r.weights
      = read_row_core (header.take line.length) line r.weights := by
    simp only [read_row_core]
    rw [← zip_take_len]
  constructor
  · rintro rfl
    rw [GraphReader.step_at_read_row _ _ hs]
    simp [on_read_row, read_row_core, hh, py_dict, py_get?, Except.map]
  · rw [GraphReader.step_at_read_row _ _ hs]
    simp only [on_read_row, hh]
    rw [← hcore]
    cases read_row_core header line r.weights with
    | error e => rfl
    | ok w2 => rfl

/-- Counterexample for C9: a data row with two values under a three-column
header is accepted, and the reader silently accumulates the truncated
column/value pairing instead of failing fast as the claim demands. -/
theorem short_row_counterexample :
    run_reader GraphReader.init [["Ridership"], ["Station", "aa", "bb"], ["cc", "5"]]
      = Except.ok ⟨STATE_READ_ROW, some ["exit", "aa", "bb"], [("aa\tcc", 5)]⟩ := by
  rfl

/-! ## C2: canonicalisation and accumulation of `_add_count` -/

/-- The canonical key of one `_add_count` call. -/
def call_key (c : String × String × Int) : String := pair_key c.1 c.2.1

/-- The call names the unordered pair `{A, B}`, in either argument order. -/
def mentions_pair (A B : String) (c : String × String × Int) : Bool :=
  (c.1 == A && c.2.1 == B) || (c.1 == B && c.2.1 == A)

/-- The total count accumulated for the unordered pair `{A, B}` over a call
sequence, both directions included. -/
def pair_total (calls : List (String × String × Int)) (A B : String) : Int :=
  ((calls.filter (fun c => mentions_pair A B c)).map (fun c => c.2.2)).sum

theorem sorted2_sorted (a b : String) :
    py_lt (sorted2 a b).2 (sorted2 a b).1 = false := by
  unfold sorted2
  by_cases h : py_lt b a = true
  · simp only [h, if_true]
    exact py_chars_lt_asymm _ _ h
  · simp only [h, if_false]
    exact (Bool.not_eq_true _).mp h

theorem sorted2_of_ne (a b : String) (h : a ≠ b) :
    sorted2 a b = (if py_lt a b = true then a else b, if py_lt a b = true then b else a) := by
  by_cases hab : py_lt a b = true
  · have hba : py_lt b a = false := py_chars_lt_asymm _ _ hab
    simp [sorted2, hab, hba]
  · by_cases hba : py_lt b a = true
    · simp [sorted2, hab, hba]
    · exfalso
      apply h
      have hd : a.data = b.data :=
        py_chars_lt_conn _ _ ((Bool.not_eq_true _).mp hab) ((Bool.not_eq_true _).mp hba)
      cases a
      cases b
      exact congrArg String.mk hd

theorem no_tab_sorted2 (a b : String) (ha : no_tab a) (hb : no_tab b) :
    no_tab (sorted2 a b).1 ∧ no_tab (sorted2 a b).2 := by
  rcases sorted2_cases a b with h | h <;> rw [h] <;> exact ⟨by assumption, by assumption⟩

/-- Splitting the canonical key of tab-free codes recovers the sorted pair. -/
theorem make_output_pair_key (s d : String) (cnt : Int) (hs : no_tab s) (hd : no_tab d) :
    make_output (pair_key s d) cnt = ⟨(sorted2 s d).1, (sorted2 s d).2, cnt⟩ := by
  obtain ⟨h1, h2⟩ := no_tab_sorted2 s d hs hd
  rw [make_output, pair_key, py_split_tab_join _ _ h1 h2]
  rfl

/-- For tab-free codes, a call contributes to the canonical key of `{A, B}`
exactly when it mentions that unordered pair. -/
theorem mentions_iff_call_key (A B s d : String) (hA : no_tab A) (hB : no_tab B)
    (hs : no_tab s) (hd : no_tab d) :
    ((s = A ∧ d = B) ∨ (s = B ∧ d = A)) ↔ pair_key s d = pair_key A B := by
  constructor
  · rintro (⟨rfl, rfl⟩ | ⟨rfl, rfl⟩)
    · rfl
    · rw [pair_key, pair_key, sorted2_comm]
  · intro hkey
    obtain ⟨hs1, hs2⟩ := no_tab_sorted2 s d hs hd
    obtain ⟨hA1, hA2⟩ := no_tab_sorted2 A B hA hB
    rw [pair_key, pair_key] at hkey
    obtain ⟨hx, hy⟩ := tab_join_inj _ _ _ _ hs1 hA1 hkey
    rcases sorted2_cases s d with hsd | hsd <;> rcases sorted2_cases A B with hAB | hAB <;>
      rw [hsd] at hx hy <;> rw [hAB] at hx hy <;> simp only at hx hy
    · exact Or.inl ⟨hx, hy⟩
    · exact Or.inr ⟨hx, hy⟩
    · exact Or.inr ⟨hy, hx⟩
    · exact Or.inl ⟨hy, hx⟩

theorem mem_py_set_elim {α : Type} (d : List (String × α)) (k : String) (v : α)
    (e : String × α) (he : e ∈ py_set d k v) : e ∈ d ∨ e = (k, v) := by
  induction d with
  | nil => simpa [py_set] using he
  | cons p d ih =>
    by_cases hp : p.1 = k
    · rw [py_set] at he
      simp only [hp, if_pos rfl] at he
      rcases List.mem_cons.mp he with h | h
      · exact Or.inr h
      · exact Or.inl (List.mem_cons_of_mem _ h)
    · rw [py_set] at he
      simp only [hp, if_false, if_neg hp] at he
      rcases List.mem_cons.mp he with h | h
      · exact Or.inl (h ▸ List.mem_cons_self _ _)
      · rcases ih h with h' | h'
        · exact Or.inl (List.mem_cons_of_mem _ h')
        · exact Or.inr h'

theorem py_get_add_count_self (w : List (String × Int)) (s d : String) (cnt : Int) :
    py_get (add_count w s d cnt) (pair_key s d) 0 = py_get w (pair_key s d) 0 + cnt := by
  simp [add_count, py_get, py_get?_set_self]

theorem py_get_add_count_ne (w : List (String × Int)) (s d : String) (cnt : Int)
    (K : String) (h : K ≠ pair_key s d) :
    py_get (add_count w s d cnt) K 0 = py_get w K 0 := by
  simp [add_count, py_get, py_get?_set_ne _ _ _ _ h]

theorem run_add_counts_get (calls : List (String × String × Int)) (K : String) :
    py_get (run_add_counts calls) K 0
      = ((calls.filter (fun c => call_key c == K)).map (fun c => c.2.2)).sum := by
  suffices h : ∀ w, py_get (calls.foldl (fun w c => add_count w c.1 c.2.1 c.2.2) w) K 0
      = py_get w K 0 + ((calls.filter (fun c => call_key c == K)).map (fun c => c.2.2)).sum by
    simpa [run_add_counts, py_get, py_get?] using h []
  induction calls with
  | nil => intro w; simp
  | cons c rest ih =>
    intro w
    rw [List.foldl_cons, ih (add_count w c.1 c.2.1 c.2.2), List.filter_cons]
    by_cases hk : call_key c = K
    · have hcond : (call_key c == K) = true := by simpa using hk
      rw [hcond, if_pos rfl]
      simp only [List.map_cons, List.sum_cons]
      rw [← hk]
      simp only [call_key]
      rw [py_get_add_count_self]
      ring
    · have hcond : (call_key c == K) = false := by simpa using hk
      rw [hcond]
      simp only [Bool.false_eq_true, if_false]
      have hne : K ≠ pair_key c.1 c.2.1 := fun h' => hk (by simpa [call_key] using h'.symm)
      rw [py_get_add_count_ne _ _ _ _ _ hne]

theorem mem_keys_run_add_counts (calls : List (String × String × Int)) (K : String) :
    K ∈ py_keys (run_add_counts calls) ↔ ∃ c ∈ calls, call_key c = K := by
  suffices h : ∀ w, K ∈ py_keys (calls.foldl (fun w c => add_count w c.1 c.2.1 c.2.2) w)
      ↔ K ∈ py_keys w ∨ ∃ c ∈ calls, call_key c = K by
    simpa [run_add_counts, py_keys] using h []
  induction calls with
  | nil => intro w; simp
  | cons c rest ih =>
    intro w
    rw [List.foldl_cons, ih (add_count w c.1 c.2.1 c.2.2)]
    have hmem : K ∈ py_keys (add_count w c.1 c.2.1 c.2.2)
        ↔ K ∈ py_keys w ∨ K = pair_key c.1 c.2.1 := by
      rw [add_count]
      exact mem_py_keys_set _ _ _ _
    constructor
    · rintro (h | h)
      · rcases hmem.mp h with h' | h'
        · exact Or.inl h'
        · exact Or.inr ⟨c, List.mem_cons_self _ _, h'.symm⟩
      · obtain ⟨c', hc', hk⟩ := h
        exact Or.inr ⟨c', List.mem_cons_of_mem _ hc', hk⟩
    · rintro (h | h)
      · exact Or.inl (hmem.mpr (Or.inl h))
      · obtain ⟨c', hc', hk⟩ := h
        rcases List.mem_cons.mp hc' with h' | h'
        · subst h'
          exact Or.inl (hmem.mpr (Or.inr hk.symm))
        · exact Or.inr ⟨c', h', hk⟩

theorem keys_run_add_counts_nodup (calls : List (String × String × Int)) :
    (py_keys (run_add_counts calls)).Nodup := by
  suffices h : ∀ w, (py_keys w).Nodup →
      (py_keys (calls.foldl (fun w c => add_count w c.1 c.2.1 c.2.2) w)).Nodup by
    exact h [] (by simp [py_keys])
  induction calls with
  | nil => intro w hw; simpa using hw
  | cons c rest ih =>
    intro w hw
    simp only [List.foldl_cons]
    exact ih _ (py_keys_set_nodup _ _ _ hw)

theorem run_add_counts_key_shape (calls : List (String × String × Int))
    (e : String × Int) (he : e ∈ run_add_counts calls) :
    ∃ c ∈ calls, e.1 = call_key c := by
  suffices h : ∀ w, e ∈ calls.foldl (fun w c => add_count w c.1 c.2.1 c.2.2) w →
      e ∈ w ∨ ∃ c ∈ calls, e.1 = call_key c by
    rcases h [] he with h' | h'
    · simp at h'
    · exact h'
  clear he
  induction calls with
  | nil => intro w hw; exact Or.inl (by simpa using hw)
  | cons c rest ih =>
    intro w hw
    simp only [List.foldl_cons] at hw
    rcases ih _ hw with h' | h'
    · rcases mem_py_set_elim _ _ _ _ h' with h'' | h''
      · exact Or.inl h''
      · refine Or.inr ⟨c, List.mem_cons_self _ _, ?_⟩
        rw [h'']
        rfl
    · obtain ⟨c', hc', hk⟩ := h'
      exact Or.inr ⟨c', List.mem_cons_of_mem _ hc', hk⟩

theorem map_filter_comm {α β : Type} (f : α → β) (p : β → Bool) (l : List α) :
    (l.map f).filter p = (l.filter (fun a => p (f a))).map f := by
  induction l with
  | nil => rfl
  | cons a l ih =>
    by_cases h : p (f a) = true
    · simp [List.filter_cons, h, ih]
    · simp [List.filter_cons, h, ih]

theorem mentions_pair_eq_keytest (A B : String) (hA : no_tab A) (hB : no_tab B)
    (c : String × String × Int) (hs : no_tab c.1) (hd : no_tab c.2.1) :
    mentions_pair A B c = (call_key c == pair_key A B) := by
  have hiff : mentions_pair A B c = true ↔ (call_key c == pair_key A B) = true := by
    rw [beq_iff_eq, call_key]
    rw [← mentions_iff_call_key A B c.1 c.2.1 hA hB hs hd]
    simp [mentions_pair, Bool.or_eq_true, Bool.and_eq_true, beq_iff_eq]
  cases hm : mentions_pair A B c
  · cases hk : (call_key c == pair_key A B)
    · rfl
    · exact absurd (hiff.mpr hk) (by simp [hm])
  · rw [hiff.mp hm]

theorem sorted2_pred_eq (s d A B : String) (hAB : A ≠ B) (hA : no_tab A) (hB : no_tab B)
    (hs : no_tab s) (hd : no_tab d) :
    (((sorted2 s d).1 == A && (sorted2 s d).2 == B)
      || ((sorted2 s d).1 == B && (sorted2 s d).2 == A))
    = (pair_key s d == pair_key A B) := by
  obtain ⟨hs1, hs2⟩ := no_tab_sorted2 s d hs hd
  obtain ⟨hA1, hA2⟩ := no_tab_sorted2 A B hA hB
  have hiff : (((sorted2 s d).1 = A ∧ (sorted2 s d).2 = B)
      ∨ ((sorted2 s d).1 = B ∧ (sorted2 s d).2 = A)) ↔ pair_key s d = pair_key A B := by
    constructor
    · rintro (⟨h1, h2⟩ | ⟨h1, h2⟩)
      · have hsorted := sorted2_sorted s d
        rw [h1, h2] at hsorted
        have hAB2 : sorted2 A B = (A, B) := by simp [sorted2, hsorted]
        rw [pair_key, pair_key, hAB2, h1, h2]
      · have hsorted := sorted2_sorted s d
        rw [h1, h2] at hsorted
        by_cases hba : py_lt B A = true
        · have hAB2 : sorted2 A B = (B, A) := by simp [sorted2, hba]
          rw [pair_key, pair_key, hAB2, h1, h2]
        · exfalso
          apply hAB
          have hdata : A.data = B.data := py_chars_lt_conn _ _ hsorted ((Bool.not_eq_true _).mp hba)
          cases A
          cases B
          exact congrArg String.mk hdata
    · intro hkey
      rw [pair_key, pair_key] at hkey
      obtain ⟨hx, hy⟩ := tab_join_inj _ _ _ _ hs1 hA1 hkey
      rcases sorted2_cases A B with hABc | hABc <;> rw [hABc] at hx hy <;> simp only at hx hy
      · exact Or.inl ⟨hx, hy⟩
      · exact Or.inr ⟨hx, hy⟩
  cases hm : (((sorted2 s d).1 == A && (sorted2 s d).2 == B)
      || ((sorted2 s d).1 == B && (sorted2 s d).2 == A))
  · cases hk : (pair_key s d == pair_key A B)
    · rfl
    · have := hiff.mpr (by simpa using hk)
      rw [show (((sorted2 s d).1 == A && (sorted2 s d).2 == B)
        || ((sorted2 s d).1 == B && (sorted2 s d).2 == A)) = true by
          simpa [Bool.or_eq_true, Bool.and_eq_true, beq_iff_eq] using this] at hm
      exact absurd hm (by simp)
  · have := hiff.mp (by simpa [Bool.or_eq_true, Bool.and_eq_true, beq_iff_eq] using hm)
    rw [show (pair_key s d == pair_key A B) = true by simpa using this]

/-- C2 (amended): for distinct tab-free station codes `A` and `B` and any
sequence of `_add_count` calls with tab-free codes that mentions the
unordered pair `{A, B}` at least once (in either argument order), the
materialised edge list contains exactly one `GraphWeight` for `{A, B}`: its
source is the code that compares lexicographically smaller, its destination
the larger, and its count is the sum of all counts accumulated for that pair
in both directions. -/
theorem add_count_pair_canonical (calls : List (String × String × Int)) (A B : String)
    (hAB : A ≠ B) (hA : no_tab A) (hB : no_tab B)
    (hcalls : ∀ c ∈ calls, no_tab c.1 ∧ no_tab c.2.1)
    (hmention : ∃ c ∈ calls, mentions_pair A B c = true) :
    (weights_output (run_add_counts calls)).filter
        (fun gw => (gw.source == A && gw.destination == B)
          || (gw.source == B && gw.destination == A))
      = [⟨if py_lt A B = true then A else B, if py_lt A B = true then B else A,
            pair_total calls A B⟩] := by
  have hKmem : pair_key A B ∈ py_keys (run_add_counts calls) := by
    obtain ⟨c0, hc0, hm0⟩ := hmention
    refine (mem_keys_run_add_counts calls (pair_key A B)).mpr ⟨c0, hc0, ?_⟩
    obtain ⟨hs0, hd0⟩ := hcalls c0 hc0
    have hdisj : (c0.1 = A ∧ c0.2.1 = B) ∨ (c0.1 = B ∧ c0.2.1 = A) := by
      simpa [mentions_pair, Bool.or_eq_true, Bool.and_eq_true, beq_iff_eq] using hm0
    exact (mentions_iff_call_key A B c0.1 c0.2.1 hA hB hs0 hd0).mp hdisj
  obtain ⟨v, hv⟩ := Option.isSome_iff_exists.mp (py_get?_isSome_of_mem_keys _ _ hKmem)
  have hfilter_eq : calls.filter (fun c => call_key c == pair_key A B)
      = calls.filter (fun c => mentions_pair A B c) := by
    apply List.filter_congr
    intro c hc
    obtain ⟨hs0, hd0⟩ := hcalls c hc
    exact (mentions_pair_eq_keytest A B hA hB c hs0 hd0).symm
  have hvv : v = pair_total calls A B := by
    have h1 := run_add_counts_get calls (pair_key A B)
    rw [py_get, hv, Option.getD_some] at h1
    rw [h1, pair_total, hfilter_eq]
  have hpred : ∀ e ∈ run_add_counts calls,
      (((make_output e.1 e.2).source == A && (make_output e.1 e.2).destination == B)
        || ((make_output e.1 e.2).source == B && (make_output e.1 e.2).destination == A))
      = (e.1 == pair_key A B) := by
    intro e he
    obtain ⟨c, hc, hkey⟩ := run_add_counts_key_shape calls e he
    obtain ⟨hcs, hcd⟩ := hcalls c hc
    rw [hkey]
    have hmk : make_output (call_key c) e.2
        = ⟨(sorted2 c.1 c.2.1).1, (sorted2 c.1 c.2.1).2, e.2⟩ := by
      rw [call_key]
      exact make_output_pair_key _ _ _ hcs hcd
    rw [hmk]
    have := sorted2_pred_eq c.1 c.2.1 A B hAB hA hB hcs hcd
    simpa [call_key] using this
  rw [weights_output, map_filter_comm]
  rw [List.filter_congr hpred]
  rw [filter_eq_singleton_of_nodup _ _ _ (keys_run_add_counts_nodup calls) (hvv ▸ hv)]
  rw [List.map_cons, List.map_nil]
  rw [show make_output (pair_key A B) (pair_total calls A B)
      = ⟨(sorted2 A B).1, (sorted2 A B).2, pair_total calls A B⟩ from
    make_output_pair_key _ _ _ hA hB]
  rw [sorted2_of_ne A B hAB]

/-- Witness for C2: two calls in opposite argument orders merge into the one
canonical edge. -/
theorem add_count_pair_canonical_witness :
    (weights_output (run_add_counts [("bb", "aa", 3), ("aa", "bb", 4)])).filter
        (fun gw => (gw.source == "aa" && gw.destination == "bb")
          || (gw.source == "bb" && gw.destination == "aa"))
      = [⟨"aa", "bb", 7⟩] := by
  rw [add_count_pair_canonical [("bb", "aa", 3), ("aa", "bb", 4)] "aa" "bb"
    (by decide) (by decide) (by decide) (by decide)
    ⟨("bb", "aa", 3), by decide, by decide⟩]
  rfl

/-- Counterexample for C2 as stated: for the distinct station codes
`"a\t"` and `"bb"` (the first contains the tab separator) a call mentioning
the pair produces an edge for the mangled pair `("a", "")` instead, so the
finished graph contains no `GraphWeight` at all for `{A, B}` rather than
exactly one. -/
theorem add_count_pair_counterexample :
    ("a\t" : String) ≠ "bb"
    ∧ (weights_output (run_add_counts [("a\t", "bb", 5)]))
        = [⟨"a", "", 5⟩]
    ∧ (weights_output (run_add_counts [("a\t", "bb", 5)])).filter
        (fun gw => (gw.source == "a\t" && gw.destination == "bb")
          || (gw.source == "bb" && gw.destination == "a\t"))
        = [] := by
  refine ⟨by decide, by rfl, by rfl⟩

/-! ## C3: self cells and self-loops -/

theorem pair_key_ne_self_key (s dest : String) (h : s ≠ dest) :
    pair_key s dest ≠ dest ++ "\t" ++ dest := by
  rw [pair_key]
  rcases sorted2_cases s dest with hc | hc <;> rw [hc] <;> intro heq <;> apply h <;>
    have hdata := congrArg String.data heq
  · have h2 : s.data ++ ('\t' :: dest.data) = dest.data ++ ('\t' :: dest.data) := by
      simpa [String.data_append] using hdata
    have h3 : s.data = dest.data := List.append_left_injective _ h2
    cases s
    cases dest
    exact congrArg String.mk h3
  · have h2 : dest.data ++ ('\t' :: s.data) = dest.data ++ ('\t' :: dest.data) := by
      simpa [String.data_append] using hdata
    have h3 : '\t' :: s.data = '\t' :: dest.data := List.append_right_injective _ h2
    have h4 : s.data = dest.data := by injection h3
    cases s
    cases dest
    exact congrArg String.mk h4

theorem accum_sources_self_key (row : List (String × String)) (dest : String)
    (src : List String) (w w2 : List (String × Int))
    (hsrc : ∀ s ∈ src, s ≠ dest)
    (h : accum_sources row dest src w = Except.ok w2) :
    py_get? w2 (dest ++ "\t" ++ dest) = py_get? w (dest ++ "\t" ++ dest) := by
  induction src generalizing w with
  | nil =>
    simp only [accum_sources, Except.ok.injEq] at h
    rw [h]
  | cons s rest ih =>
    simp only [accum_sources] at h
    cases hv : py_get? row s with
    | none => rw [hv] at h; exact absurd h (by simp)
    | some v =>
      rw [hv] at h
      have h2 : (match py_int? (py_remove_commas (py_strip v)) with
          | none => (Except.error "ValueError" : Except String (List (String × Int)))
          | some count => accum_sources row dest rest (add_count w s dest count))
          = Except.ok w2 := h
      cases hint : py_int? (py_remove_commas (py_strip v)) with
      | none => rw [hint] at h2; exact absurd h2 (by simp)
      | some cnt =>
        rw [hint] at h2
        have hrest : ∀ x ∈ rest, x ≠ dest := fun x hx => hsrc x (List.mem_cons_of_mem _ hx)
        rw [ih _ hrest h2]
        simp only [add_count]
        rw [py_get?_set_ne _ _ _ _
          (pair_key_ne_self_key s dest (hsrc s (List.mem_cons_self _ _))).symm]

/-- A well-formed canonical key: the tab-join of two distinct tab-free codes. -/
def KeyWF (k : String) : Prop :=
  ∃ a b, no_tab a ∧ no_tab b ∧ a ≠ b ∧ k = a ++ "\t" ++ b

theorem pair_key_wf (s dest : String) (hs : no_tab s) (hd : no_tab dest) (hne : s ≠ dest) :
    KeyWF (pair_key s dest) := by
  rw [pair_key]
  rcases sorted2_cases s dest with hc | hc <;> rw [hc]
  · exact ⟨s, dest, hs, hd, hne, rfl⟩
  · exact ⟨dest, s, hd, hs, fun h => hne h.symm, rfl⟩

theorem make_output_ne_of_wf (k : String) (cnt : Int) (h : KeyWF k) :
    (make_output k cnt).source ≠ (make_output k cnt).destination := by
  obtain ⟨a, b, ha, hb, hne, rfl⟩ := h
  rw [make_output, py_split_tab_join _ _ ha hb]
  exact hne

theorem accum_sources_keywf (row : List (String × String)) (dest : String)
    (src : List String) (w w2 : List (String × Int))
    (hdest : no_tab dest) (hsrc : ∀ s ∈ src, s ≠ dest ∧ no_tab s)
    (hw : ∀ e ∈ w, KeyWF e.1)
    (h : accum_sources row dest src w = Except.ok w2) :
    ∀ e ∈ w2, KeyWF e.1 := by
  induction src generalizing w with
  | nil =>
    simp only [accum_sources, Except.ok.injEq] at h
    rw [← h]
    exact hw
  | cons s rest ih =>
    simp only [accum_sources] at h
    cases hv : py_get? row s with
    | none => rw [hv] at h; exact absurd h (by simp)
    | some v =>
      rw [hv] at h
      have h2 : (match py_int? (py_remove_commas (py_strip v)) with
          | none => (Except.error "ValueError" : Except String (List (String × Int)))
          | some count => accum_sources row dest rest (add_count w s dest count))
          = Except.ok w2 := h
      cases hint : py_int? (py_remove_commas (py_strip v)) with
      | none => rw [hint] at h2; exact absurd h2 (by simp)
      | some cnt =>
        rw [hint] at h2
        obtain ⟨hne, hstab⟩ := hsrc s (List.mem_cons_self _ _)
        refine ih _ (fun x hx => hsrc x (List.mem_cons_of_mem _ hx)) ?_ h2
        intro e he
        rcases mem_py_set_elim _ _ _ _ he with h' | h'
        · exact hw e h'
        · rw [h']
          exact pair_key_wf s dest hstab hdest hne

theorem mem_py_dict {α : Type} (pairs : List (String × α)) (e : String × α)
    (he : e ∈ py_dict pairs) : e ∈ pairs := by
  suffices h : ∀ w, e ∈ pairs.foldl (fun d p => py_set d p.1 p.2) w → e ∈ w ∨ e ∈ pairs by
    rcases h [] he with h' | h'
    · simp at h'
    · exact h'
  clear he
  induction pairs with
  | nil => intro w hw; exact Or.inl (by simpa using hw)
  | cons p rest ih =>
    intro w hw
    simp only [List.foldl_cons] at hw
    rcases ih _ hw with h' | h'
    · rcases mem_py_set_elim _ _ _ _ h' with h'' | h''
      · exact Or.inl h''
      · rw [h'']
        exact Or.inr (List.mem_cons_self _ _)
    · exact Or.inr (List.mem_cons_of_mem _ h')

theorem mem_zip_elim {α β : Type} (l1 : List α) (l2 : List β) (a : α) (b : β)
    (h : (a, b) ∈ l1.zip l2) : a ∈ l1 ∧ b ∈ l2 := by
  induction l1 generalizing l2 with
  | nil => simp at h
  | cons x xs ih =>
    cases l2 with
    | nil => simp at h
    | cons y ys =>
      rw [List.zip_cons_cons] at h
      rcases List.mem_cons.mp h with h' | h'
      · have h1 : a = x ∧ b = y := by simpa using h'
        rw [h1.1, h1.2]
        exact ⟨List.mem_cons_self _ _, List.mem_cons_self _ _⟩
      · obtain ⟨ha, hb⟩ := ih ys h'
        exact ⟨List.mem_cons_of_mem _ ha, List.mem_cons_of_mem _ hb⟩

/-- The invariant kept by a reader fed only tab-free fields: every string of
the stored header is tab-free and every accumulator key is a well-formed
canonical key. -/
def ReaderWF (r : GraphReader) : Prop :=
  (∀ H, r.origin_header = some H → ∀ s ∈ H, no_tab s)
  ∧ (∀ e ∈ r.weights, KeyWF e.1)

theorem step_preserves_wf (r r' : GraphReader) (line : List String)
    (hline : ∀ v ∈ line, no_tab v) (hwf : ReaderWF r)
    (h : r.step line = Except.ok r') : ReaderWF r' := by
  obtain ⟨hhdr, hwts⟩ := hwf
  rcases r with ⟨s, oh, w⟩
  obtain _ | _ | _ | _ | s := s
  · have h' : Except.ok (⟨STATE_READ_ORIGIN, oh, w⟩ : GraphReader) = Except.ok r' := h
    injection h' with h'
    rw [← h']
    exact ⟨hhdr, hwts⟩
  · cases line with
    | nil =>
      have h' : (Except.error "IndexError" : Except String GraphReader) = Except.ok r' := h
      exact absurd h' (by simp)
    | cons f rest =>
      have h' : Except.ok (⟨STATE_READ_ROW, some ("exit" :: rest), w⟩ : GraphReader)
          = Except.ok r' := h
      injection h' with h'
      rw [← h']
      constructor
      · intro H hH x hx
        injection hH with hH
        rw [← hH] at hx
        rcases List.mem_cons.mp hx with h'' | h''
        · rw [h'']
          decide
        · exact hline _ (List.mem_cons_of_mem _ h'')
      · exact hwts
  · cases oh with
    | none =>
      have h' : (Except.error "TypeError" : Except String GraphReader) = Except.ok r' := h
      exact absurd h' (by simp)
    | some H =>
      have h' : (read_row_core H line w).map
          (fun w2 => (⟨STATE_READ_ROW, some H, w2⟩ : GraphReader)) = Except.ok r' := h
      cases hcore : read_row_core H line w with
      | error e => rw [hcore] at h'; exact absurd h' (by simp [Except.map])
      | ok w2 =>
        rw [hcore] at h'
        simp only [Except.map] at h'
        injection h' with h'
        rw [← h']
        have hHtab : ∀ x ∈ H, no_tab x := hhdr H rfl
        constructor
        · intro H' hH' x hx
          injection hH' with hH'
          rw [← hH'] at hx
          exact hHtab x hx
        · simp only [read_row_core] at hcore
          cases hdest : py_get? (py_dict (H.zip line)) "exit" with
          | none => rw [hdest] at hcore; exact absurd hcore (by simp)
          | some dest =>
            rw [hdest] at hcore
            have hcore2 : accum_sources (py_dict (H.zip line)) dest
                (((py_keys (py_dict (H.zip line))).filter (fun x => x != "exit")).filter
                  (fun x => x != dest)) w = Except.ok w2 := hcore
            have hdest_tab : no_tab dest := by
              have hmem := mem_of_py_get?_eq_some _ _ _ hdest
              have hz := mem_py_dict _ _ hmem
              exact hline _ (mem_zip_elim _ _ _ _ hz).2
            refine accum_sources_keywf _ _ _ _ _ hdest_tab ?_ hwts hcore2
            intro x hx
            rw [List.mem_filter] at hx
            obtain ⟨hx1, hx2⟩ := hx
            rw [List.mem_filter] at hx1
            obtain ⟨hx0, _⟩ := hx1
            refine ⟨bne_iff_ne.mp hx2, ?_⟩
            rw [py_keys] at hx0
            obtain ⟨e, he, heq⟩ := List.mem_map.mp hx0
            obtain ⟨k, v⟩ := e
            have hz := mem_py_dict _ _ he
            have hk : k ∈ H := (mem_zip_elim _ _ _ _ hz).1
            rw [← heq]
            exact hHtab _ hk
  · have h' : (Except.error "Asked to iterate on finalized reader." :
        Except String GraphReader) = Except.ok r' := h
    exact absurd h' (by simp)
  · have h' : (Except.error "KeyError" : Except String GraphReader) = Except.ok r' := h
    exact absurd h' (by simp)

theorem run_reader_wf (lines : List (List String)) :
    ∀ (r0 r : GraphReader), ReaderWF r0 →
    (∀ l ∈ lines, ∀ v ∈ l, no_tab v) →
    run_reader r0 lines = Except.ok r → ReaderWF r := by
  induction lines with
  | nil =>
    intro r0 r h0 _ h
    simp only [run_reader, Except.ok.injEq] at h
    rw [← h]
    exact h0
  | cons l rest ih =>
    intro r0 r h0 hl h
    simp only [run_reader] at h
    cases hs : r0.step l with
    | error e => rw [hs] at h; exact absurd h (by simp)
    | ok r2 =>
      rw [hs] at h
      have h2 : run_reader r2 rest = Except.ok r := h
      exact ih r2 r (step_preserves_wf r0 r2 l (hl l (List.mem_cons_self _ _)) h0 hs)
        (fun x hx => hl x (List.mem_cons_of_mem _ hx)) h2

/-- C3 (amended): (i) the matrix cell of a row's own station (and any other
cell) never contributes to a self pair: a successful `READ_ROW` step leaves
the accumulator unchanged at the key joining the row's own code with itself,
because every iterated column differs from the row's own code; (ii) when the
input's fields are tab-free, the edge list of `finish` contains no
`GraphWeight` whose source equals its destination. -/
theorem self_cells_skipped_no_self_loops :
    (∀ (r r' : GraphReader) (H line : List String) (dest : String),
        r.state = STATE_READ_ROW → r.origin_header = some H →
        py_get? (py_dict (H.zip line)) "exit" = some dest →
        r.step line = Except.ok r' →
        py_get? r'.weights (dest ++ "\t" ++ dest)
          = py_get? r.weights (dest ++ "\t" ++ dest))
    ∧ (∀ (lines : List (List String)) (r : GraphReader),
        (∀ l ∈ lines, ∀ v ∈ l, no_tab v) →
        run_reader GraphReader.init lines = Except.ok r →
        ∀ gw ∈ r.finish.1, gw.source ≠ gw.destination) := by
  constructor
  · intro r r' H line dest hs hh hd hstep
    rw [GraphReader.step_at_read_row _ _ hs] at hstep
    simp only [on_read_row, hh] at hstep
    cases hcore : read_row_core H line r.weights with
    | error e => rw [hcore] at hstep; exact absurd hstep (by simp [Except.map])
    | ok w2 =>
      rw [hcore] at hstep
      simp only [Except.map] at hstep
      injection hstep with hstep
      rw [← hstep]
      simp only [read_row_core, hd] at hcore
      have hcore2 : accum_sources (py_dict (H.zip line)) dest
          (((py_keys (py_dict (H.zip line))).filter (fun x => x != "exit")).filter
            (fun x => x != dest)) r.weights = Except.ok w2 := hcore
      exact accum_sources_self_key _ _ _ _ _
        (fun x hx => bne_iff_ne.mp (List.mem_filter.mp hx).2) hcore2
  · intro lines r hlines hrun gw hgw
    have hwf := run_reader_wf lines GraphReader.init r
      ⟨fun H h => by simp [GraphReader.init] at h, fun e he => by simp [GraphReader.init] at he⟩
      hlines hrun
    obtain ⟨e, he, heq⟩ := List.mem_map.mp hgw
    rw [← heq]
    exact make_output_ne_of_wf _ _ (hwf.2 e he)

/-- Witness for C3: a concrete `READ_ROW` step leaves the self key untouched,
and a concrete tab-free run yields an edge with distinct endpoints. -/
theorem self_cells_skipped_witness :
    py_get? [("aa\tcc", (5 : Int))] ("cc" ++ "\t" ++ "cc")
      = py_get? ([] : List (String × Int)) ("cc" ++ "\t" ++ "cc")
    ∧ (⟨"aa", "cc", (5 : Int)⟩ : GraphWeight).source
      ≠ (⟨"aa", "cc", (5 : Int)⟩ : GraphWeight).destination := by
  constructor
  · exact self_cells_skipped_no_self_loops.1
      ⟨STATE_READ_ROW, some ["exit", "aa"], []⟩
      ⟨STATE_READ_ROW, some ["exit", "aa"], [("aa\tcc", 5)]⟩
      ["exit", "aa"] ["cc", "5"] "cc" rfl rfl (by rfl) (by rfl)
  · exact self_cells_skipped_no_self_loops.2
      [["t"], ["", "aa", "bb"], ["cc", "5", "7"]]
      ⟨STATE_READ_ROW, some ["exit", "aa", "bb"], [("aa\tcc", 5), ("bb\tcc", 7)]⟩
      (by decide) (by rfl) ⟨"aa", "cc", 5⟩ (by decide)

/-- Counterexample for C3 as stated: with a station code containing the tab
separator, the row filter still skips the self column, yet `finish` returns a
`GraphWeight` whose source equals its destination — the mangled key
`"x\tx\tz"` splits into `("x", "x")`. -/
theorem self_loop_counterexample :
    run_reader GraphReader.init [["t"], ["", "x\tx"], ["z", "5"]]
      = Except.ok ⟨STATE_READ_ROW, some ["exit", "x\tx"], [("x\tx\tz", 5)]⟩
    ∧ (GraphReader.finish ⟨STATE_READ_ROW, some ["exit", "x\tx"], [("x\tx\tz", 5)]⟩).1
      = [⟨"x", "x", 5⟩] := ⟨rfl, rfl⟩

/-! ## The windowed raster aggregator (`geohash_population.py`) -/

/-- `PopulationGrid` (geohash_population.py lines 77-104): one geohash with
its estimated population.  Raster sample values (floats in the source) are
idealised as exact rationals. -/
structure PopulationGrid where
  geohash : String
  population : ℚ
deriving DecidableEq

/-- `read_box` (geohash_population.py lines 107-124): read a window from the
raster and clip every value below zero up to zero (`numpy.clip(…, 0, None)`);
an out-of-bounds window (`BoundaryNotInTifError`) yields no result.  The
raster is an external collaborator, passed as a function from the requested
bounds to either a pixel matrix or the out-of-bounds failure. -/
def read_box (target : List (List ℚ) → Except Unit (List (List ℚ)))
    (bounds : List (List ℚ)) : Option (List (List ℚ)) :=
  match target bounds with
  | Except.error _ => none
  | Except.ok arr => some (arr.map (fun row => row.map (fun v => max v 0)))

/-- The scalar total of a pixel matrix (`float(numpy.sum(result))`). -/
def matrix_sum (arr : List (List ℚ)) : ℚ := (arr.map (fun row => row.sum)).sum

/-- The window corners `get_sum` sends to the raster: the geohash bounding box
with each (lat, lon) corner reordered to (x, y) = (lon, lat)
(geohash_population.py lines 138-142). -/
def sum_bounds (gh_bounds : String → (ℚ × ℚ) × (ℚ × ℚ)) (geohash : String) :
    List (List ℚ) :=
  [[(gh_bounds geohash).1.2, (gh_bounds geohash).1.1],
    [(gh_bounds geohash).2.2, (gh_bounds geohash).2.1]]

/-- `get_sum` (geohash_population.py lines 127-149): derive the geohash's
bounding box (the geohash decoding `geolib.geohash.bounds` is an external
collaborator, passed as `gh_bounds`), read the clipped window and sum it. -/
def get_sum (target : List (List ℚ) → Except Unit (List (List ℚ)))
    (gh_bounds : String → (ℚ × ℚ) × (ℚ × ℚ)) (geohash : String) :
    Option PopulationGrid :=
  match read_box target (sum_bounds gh_bounds geohash) with
  | none => none
  | some result => some ⟨geohash, matrix_sum result⟩

/-- C4: `get_sum` returns no record exactly when the windowed read fails with
the out-of-bounds condition; otherwise it returns a `PopulationGrid` for the
requested cell whose population is the sum of the window after every value
below zero is replaced by zero — in particular an all-negative window sums to
exactly 0. -/
theorem get_sum_spec (target : List (List ℚ) → Except Unit (List (List ℚ)))
    (gh_bounds : String → (ℚ × ℚ) × (ℚ × ℚ)) (geohash : String) :
    (get_sum target gh_bounds geohash = none
      ↔ ∃ e, target (sum_bounds gh_bounds geohash) = Except.error e)
    ∧ (∀ arr, target (sum_bounds gh_bounds geohash) = Except.ok arr →
        get_sum target gh_bounds geohash
          = some ⟨geohash, matrix_sum (arr.map (fun row => row.map (fun v => max v 0)))⟩)
    ∧ (∀ arr, target (sum_bounds gh_bounds geohash) = Except.ok arr →
        (∀ row ∈ arr, ∀ v ∈ row, v < 0) →
        get_sum target gh_bounds geohash = some ⟨geohash, 0⟩) := by
  refine ⟨?_, ?_, ?_⟩
  · constructor
    · intro h
      cases ht : target (sum_bounds gh_bounds geohash) with
      | error e => exact ⟨e, rfl⟩
      | ok arr =>
        rw [get_sum, read_box, ht] at h
        simp at h
    · rintro ⟨e, he⟩
      rw [get_sum, read_box, he]
  · intro arr ht
    rw [get_sum, read_box, ht]
  · intro arr ht hneg
    rw [get_sum, read_box, ht]
    show some (⟨geohash, matrix_sum (arr.map (fun row => row.map (fun v => max v 0)))⟩ :
      PopulationGrid) = some ⟨geohash, 0⟩
    have hz : matrix_sum (arr.map (fun row => row.map (fun v => max v 0))) = 0 := by
      rw [matrix_sum]
      apply List.sum_eq_zero
      intro x hx
      rw [List.map_map] at hx
      obtain ⟨row, hrow, hxeq⟩ := List.mem_map.mp hx
      rw [← hxeq]
      simp only [Function.comp]
      apply List.sum_eq_zero
      intro y hy
      obtain ⟨v, hv, hyeq⟩ := List.mem_map.mp hy
      rw [← hyeq]
      exact max_eq_right (le_of_lt (hneg row hrow v hv))
    rw [hz]

/-- Witness for C4: a two-by-two all-negative window sums to exactly 0. -/
theorem get_sum_spec_witness :
    get_sum (fun _ => Except.ok [[-1, -5], [-2, -3]]) (fun _ => ((1, 2), (3, 4))) "9q9p3"
      = some ⟨"9q9p3", 0⟩ :=
  (get_sum_spec (fun _ => Except.ok [[-1, -5], [-2, -3]]) (fun _ => ((1, 2), (3, 4)))
    "9q9p3").2.2 [[-1, -5], [-2, -3]] rfl (by decide)

/-! ## The population CSV loader (`prep_dataset.py`) -/

/-- `PopulationGridSpace` (prep_dataset.py lines 260-303). -/
structure PopulationGridSpace where
  geohash : String
  count : ℚ
deriving DecidableEq

/-- `load_population_data` (prep_dataset.py lines 387-400): build grid-space
records from the parsed rows of the CSV file the function opens.  The CSV
reader and the `float` builtin are external collaborators: `read_rows` maps a
file path to the parsed records of the file stored at that path on the fixed
file system, and `pfloat` models `float` on the `count` column.  The body
opens the literal path `'population.csv'`, ignoring the `filepath` argument. -/
def load_population_data (read_rows : String → List (String → String))
    (pfloat : String → ℚ) (filepath : String) : List PopulationGridSpace :=
  (read_rows "population.csv").map (fun x => ⟨x "geohash", pfloat (x "count")⟩)

/-- C10: on one fixed file system, `load_population_data` returns the same
list for every pair of filepath arguments — the result never depends on the
argument because the function always reads the hard-coded `'population.csv'`. -/
theorem load_population_data_ignores_filepath
    (read_rows : String → List (String → String)) (pfloat : String → ℚ)
    (p1 p2 : String) :
    load_population_data read_rows pfloat p1 = load_population_data read_rows pfloat p2 := rfl

/-- Witness for C9: a two-value row against a three-column header, processed
exactly as under the header truncated to length two. -/
theorem short_row_truncates_witness :
    Except.map (fun x => x.weights)
        (GraphReader.step ⟨STATE_READ_ROW, some ["exit", "aa", "bb"], []⟩ ["cc", "5"])
      = read_row_core (["exit", "aa", "bb"].take 2) ["cc", "5"] [] :=
  (short_row_truncates ⟨STATE_READ_ROW, some ["exit", "aa", "bb"], []⟩
    ["exit", "aa", "bb"] ["cc", "5"] rfl rfl).2

/-! ## The grid traversal engine (`geohash_population.py`) -/

/-- `ALLOWED_THREE_LETTERS` (geohash_population.py lines 22-27). -/
def ALLOWED_THREE_LETTERS : List String := ["9qb", "9qc", "9q8", "9q9"]

/-- `START_GEOHASH` (geohash_population.py line 29). -/
def START_GEOHASH : String := "9q9p3"

/-- The allow-list test of `__next__` (line 62): the cell's 3-character
coarse prefix belongs to the allow-list (`x[:3] in ALLOWED_THREE_LETTERS`,
generalised over the allow-list). -/
def pref_allowed (allow : List String) (x : String) : Bool :=
  decide ((x.take 3) ∈ allow)

/-- The source's own allow-list test. -/
def allowed_three (x : String) : Bool := pref_allowed ALLOWED_THREE_LETTERS x

/-- `GeohashEnumerator` state (lines 38-49): the seen set and the FIFO
frontier queue, both seeded with the start geohash. -/
structure GeohashEnumerator where
  geohashes_seen : List String
  geohashes_waiting : List String
deriving DecidableEq

/-- `GeohashEnumerator.__init__` (lines 38-49). -/
def GeohashEnumerator.init (start_geohash : String) : GeohashEnumerator :=
  ⟨[start_geohash], [start_geohash]⟩

/-- One iteration of the neighbour loop of `__next__` (lines 60-72): the
neighbour passes the allow-list filter and the (lazily evaluated) seen filter
before being added to both the seen set and the frontier queue. -/
def expand_step (allowed : String → Bool) (st : GeohashEnumerator) (x : String) :
    GeohashEnumerator :=
  if allowed x = true ∧ x ∉ st.geohashes_seen then
    ⟨x :: st.geohashes_seen, st.geohashes_waiting ++ [x]⟩
  else st

/-- The whole neighbour loop of `__next__` over one dequeued cell's
neighbour list. -/
def expand (allowed : String → Bool) (neighbors : List String)
    (st : GeohashEnumerator) : GeohashEnumerator :=
  neighbors.foldl (expand_step allowed) st

/-- The state change of one `__next__` call (lines 54-74): dequeue the head
of the frontier and expand its neighbours; an empty frontier means
`StopIteration`, leaving the state unchanged.  The neighbour computation
`geolib.geohash.neighbours` is an external collaborator `nb`. -/
def enum_step (nb : String → List String) (allowed : String → Bool)
    (st : GeohashEnumerator) : GeohashEnumerator :=
  match st.geohashes_waiting with
  | [] => st
  | g :: rest => expand allowed (nb g) ⟨st.geohashes_seen, rest⟩

/-- Iterated `__next__` state changes. -/
def enum_iter (nb : String → List String) (allowed : String → Bool)
    (st : GeohashEnumerator) : Nat → GeohashEnumerator
  | 0 => st
  | n + 1 => enum_iter nb allowed (enum_step nb allowed st) n

/-- The identifiers produced by up to `fuel` pulls: `__next__` returns the
dequeued head, and raises `StopIteration` on an empty frontier, ending the
sequence. -/
def enum_run (nb : String → List String) (allowed : String → Bool) :
    Nat → GeohashEnumerator → List String
  | 0, _ => []
  | n + 1, st =>
    match st.geohashes_waiting with
    | [] => []
    | g :: rest =>
      g :: enum_run nb allowed n (expand allowed (nb g) ⟨st.geohashes_seen, rest⟩)

/-- Reachability by repeated neighbour adjacency alone (no allow-list
constraint). -/
inductive reach_adj (nb : String → List String) (seed : String) : String → Prop
  | refl : reach_adj nb seed seed
  | step (c c' : String) : reach_adj nb seed c → c' ∈ nb c → reach_adj nb seed c'

/-- Reachability through the allow-list: a chain of neighbour steps from the
seed in which every cell after the seed passes the allow-list. -/
inductive reach_allowed (nb : String → List String) (allowed : String → Bool)
    (seed : String) : String → Prop
  | refl : reach_allowed nb allowed seed seed
  | step (c c' : String) : reach_allowed nb allowed seed c → c' ∈ nb c →
      allowed c' = true → reach_allowed nb allowed seed c'

/-- The invariant of every reachable enumerator state: the frontier has no
duplicates, frontier cells are seen, and the seen set has no duplicates. -/
structure EnumInv (st : GeohashEnumerator) : Prop where
  w_nodup : st.geohashes_waiting.Nodup
  w_seen : ∀ x ∈ st.geohashes_waiting, x ∈ st.geohashes_seen
  s_nodup : st.geohashes_seen.Nodup

theorem expand_pres (allowed : String → Bool) (P : GeohashEnumerator → Prop)
    (hP : ∀ st x, P st → P (expand_step allowed st x)) :
    ∀ (l : List String) (st : GeohashEnumerator), P st → P (expand allowed l st) := by
  intro l
  induction l with
  | nil => intro st h; exact h
  | cons x xs ih => intro st h; exact ih (expand_step allowed st x) (hP st x h)

theorem expand_seen_mono (allowed : String → Bool) (l : List String)
    (st : GeohashEnumerator) (y : String) (hy : y ∈ st.geohashes_seen) :
    y ∈ (expand allowed l st).geohashes_seen := by
  refine expand_pres allowed (fun t => y ∈ t.geohashes_seen) ?_ l st hy
  intro t x h
  rw [expand_step]
  by_cases hc : allowed x = true ∧ x ∉ t.geohashes_seen
  · rw [if_pos hc]
    exact List.mem_cons_of_mem _ h
  · rw [if_neg hc]
    exact h

theorem expand_waiting_mono (allowed : String → Bool) (l : List String)
    (st : GeohashEnumerator) (y : String) (hy : y ∈ st.geohashes_waiting) :
    y ∈ (expand allowed l st).geohashes_waiting := by
  refine expand_pres allowed (fun t => y ∈ t.geohashes_waiting) ?_ l st hy
  intro t x h
  rw [expand_step]
  by_cases hc : allowed x = true ∧ x ∉ t.geohashes_seen
  · rw [if_pos hc]
    exact List.mem_append_left _ h
  · rw [if_neg hc]
    exact h

theorem expand_seen_bound (allowed : String → Bool) (l : List String)
    (st : GeohashEnumerator) :
    ∀ y ∈ (expand allowed l st).geohashes_seen,
      y ∈ st.geohashes_seen ∨ allowed y = true := by
  refine expand_pres allowed
    (fun t => ∀ y ∈ t.geohashes_seen, y ∈ st.geohashes_seen ∨ allowed y = true)
    ?_ l st (fun y hy => Or.inl hy)
  intro t x h
  rw [expand_step]
  by_cases hc : allowed x = true ∧ x ∉ t.geohashes_seen
  · rw [if_pos hc]
    intro y hy
    rcases List.mem_cons.mp hy with h' | h'
    · rw [h']
      exact Or.inr hc.1
    · exact h y h'
  · rw [if_neg hc]
    exact h

theorem expand_waiting_src (allowed : String → Bool) (l : List String)
    (st : GeohashEnumerator) :
    ∀ x ∈ (expand allowed l st).geohashes_waiting,
      x ∈ st.geohashes_waiting
      ∨ (allowed x = true ∧ x ∉ st.geohashes_seen
          ∧ x ∈ (expand allowed l st).geohashes_seen) := by
  have h := expand_pres allowed
    (fun t => (∀ y ∈ st.geohashes_seen, y ∈ t.geohashes_seen)
      ∧ ∀ x ∈ t.geohashes_waiting, x ∈ st.geohashes_waiting
        ∨ (allowed x = true ∧ x ∉ st.geohashes_seen ∧ x ∈ t.geohashes_seen))
    ?_ l st ⟨fun y hy => hy, fun x hx => Or.inl hx⟩
  · exact h.2
  · intro t x h
    obtain ⟨hsub, hw⟩ := h
    rw [expand_step]
    by_cases hc : allowed x = true ∧ x ∉ t.geohashes_seen
    · rw [if_pos hc]
      refine ⟨fun y hy => List.mem_cons_of_mem _ (hsub y hy), ?_⟩
      intro z hz
      rcases List.mem_append.mp hz with h' | h'
      · rcases hw z h' with h'' | ⟨ha, hns, hseen⟩
        · exact Or.inl h''
        · exact Or.inr ⟨ha, hns, List.mem_cons_of_mem _ hseen⟩
      · have hzx : z = x := by simpa using h'
        rw [hzx]
        exact Or.inr ⟨hc.1, fun hmem => hc.2 (hsub _ hmem), List.mem_cons_self _ _⟩
    · rw [if_neg hc]
      exact ⟨hsub, hw⟩

theorem expand_seen_src (allowed : String → Bool) (l : List String)
    (st : GeohashEnumerator) :
    ∀ x ∈ (expand allowed l st).geohashes_seen,
      x ∈ st.geohashes_seen ∨ x ∈ (expand allowed l st).geohashes_waiting := by
  refine expand_pres allowed
    (fun t => ∀ x ∈ t.geohashes_seen,
      x ∈ st.geohashes_seen ∨ x ∈ t.geohashes_waiting)
    ?_ l st (fun x hx => Or.inl hx)
  intro t x h
  rw [expand_step]
  by_cases hc : allowed x = true ∧ x ∉ t.geohashes_seen
  · rw [if_pos hc]
    intro z hz
    rcases List.mem_cons.mp hz with h' | h'
    · rw [h']
      exact Or.inr (List.mem_append_right _ (List.mem_cons_self _ _))
    · rcases h z h' with h'' | h''
      · exact Or.inl h''
      · exact Or.inr (List.mem_append_left _ h'')
  · rw [if_neg hc]
    exact h

theorem expand_len (allowed : String → Bool) (l : List String)
    (st : GeohashEnumerator) :
    (expand allowed l st).geohashes_waiting.length + st.geohashes_seen.length
      = st.geohashes_waiting.length + (expand allowed l st).geohashes_seen.length := by
  refine expand_pres allowed
    (fun t => t.geohashes_waiting.length + st.geohashes_seen.length
      = st.geohashes_waiting.length + t.geohashes_seen.length)
    ?_ l st rfl
  intro t x h
  rw [expand_step]
  by_cases hc : allowed x = true ∧ x ∉ t.geohashes_seen
  · rw [if_pos hc]
    show (t.geohashes_waiting ++ [x]).length + st.geohashes_seen.length
      = st.geohashes_waiting.length + (x :: t.geohashes_seen).length
    simp only [List.length_append, List.length_cons, List.length_nil]
    omega
  · rw [if_neg hc]
    exact h

theorem expand_seen_len_mono (allowed : String → Bool) (l : List String)
    (st : GeohashEnumerator) :
    st.geohashes_seen.length ≤ (expand allowed l st).geohashes_seen.length := by
  refine expand_pres allowed
    (fun t => st.geohashes_seen.length ≤ t.geohashes_seen.length) ?_ l st le_rfl
  intro t x h
  rw [expand_step]
  by_cases hc : allowed x = true ∧ x ∉ t.geohashes_seen
  · rw [if_pos hc]
    simp only [List.length_cons]
    omega
  · rw [if_neg hc]
    exact h

theorem expand_inv (allowed : String → Bool) (l : List String)
    (st : GeohashEnumerator) (h : EnumInv st) : EnumInv (expand allowed l st) := by
  refine expand_pres allowed EnumInv ?_ l st h
  intro t x ht
  rw [expand_step]
  by_cases hc : allowed x = true ∧ x ∉ t.geohashes_seen
  · rw [if_pos hc]
    have hxw : x ∉ t.geohashes_waiting := fun hmem => hc.2 (ht.w_seen x hmem)
    refine ⟨?_, ?_, ?_⟩
    · rw [List.nodup_append]
      refine ⟨ht.w_nodup, List.nodup_singleton _, ?_⟩
      intro a ha hb
      have hax : a = x := by simpa using hb
      rw [hax] at ha
      exact hxw ha
    · intro z hz
      rcases List.mem_append.mp hz with h' | h'
      · exact List.mem_cons_of_mem _ (ht.w_seen z h')
      · rw [show z = x by simpa using h']
        exact List.mem_cons_self _ _
    · exact List.nodup_cons.mpr ⟨hc.2, ht.s_nodup⟩
  · rw [if_neg hc]
    exact ht

theorem expand_mem_seen (allowed : String → Bool) (l : List String)
    (st : GeohashEnumerator) (x : String) (hx : x ∈ l) (hall : allowed x = true) :
    x ∈ (expand allowed l st).geohashes_seen := by
  induction l generalizing st with
  | nil => simp at hx
  | cons y ys ih =>
    rcases List.mem_cons.mp hx with h | h
    · have hx1 : x ∈ (expand_step allowed st y).geohashes_seen := by
        rw [← h, expand_step]
        by_cases hc : allowed x = true ∧ x ∉ st.geohashes_seen
        · rw [if_pos hc]
          exact List.mem_cons_self _ _
        · rw [if_neg hc]
          by_cases hmem : x ∈ st.geohashes_seen
          · exact hmem
          · exact absurd ⟨hall, hmem⟩ hc
      exact expand_seen_mono allowed ys _ x hx1
    · exact ih _ h

theorem enum_step_halted (nb : String → List String) (allowed : String → Bool)
    (st : GeohashEnumerator) (h : st.geohashes_waiting = []) :
    enum_step nb allowed st = st := by
  rcases st with ⟨seen, waiting⟩
  have h' : waiting = [] := h
  rw [h']
  rfl

theorem enum_step_cons (nb : String → List String) (allowed : String → Bool)
    (st : GeohashEnumerator) (g : String) (rest : List String)
    (h : st.geohashes_waiting = g :: rest) :
    enum_step nb allowed st = expand allowed (nb g) ⟨st.geohashes_seen, rest⟩ := by
  rcases st with ⟨seen, waiting⟩
  have h' : waiting = g :: rest := h
  rw [h']
  rfl

theorem enum_step_inv (nb : String → List String) (allowed : String → Bool)
    (st : GeohashEnumerator) (h : EnumInv st) : EnumInv (enum_step nb allowed st) := by
  cases hw : st.geohashes_waiting with
  | nil => rw [enum_step_halted nb allowed st hw]; exact h
  | cons g rest =>
    rw [enum_step_cons nb allowed st g rest hw]
    refine expand_inv allowed _ _ ⟨?_, ?_, h.s_nodup⟩
    · have := h.w_nodup
      rw [hw] at this
      exact this.of_cons
    · intro x hx
      exact h.w_seen x (by rw [hw]; exact List.mem_cons_of_mem _ hx)

theorem enum_step_seen_mono (nb : String → List String) (allowed : String → Bool)
    (st : GeohashEnumerator) (y : String) (hy : y ∈ st.geohashes_seen) :
    y ∈ (enum_step nb allowed st).geohashes_seen := by
  cases hw : st.geohashes_waiting with
  | nil => rw [enum_step_halted nb allowed st hw]; exact hy
  | cons g rest =>
    rw [enum_step_cons nb allowed st g rest hw]
    exact expand_seen_mono allowed _ _ y hy

theorem enum_iter_succ_out (nb : String → List String) (allowed : String → Bool)
    (st : GeohashEnumerator) (n : Nat) :
    enum_iter nb allowed st (n + 1) = enum_step nb allowed (enum_iter nb allowed st n) := by
  induction n generalizing st with
  | zero => rfl
  | succ m ih =>
    show enum_iter nb allowed (enum_step nb allowed st) (m + 1)
      = enum_step nb allowed (enum_iter nb allowed (enum_step nb allowed st) m)
    exact ih (enum_step nb allowed st)

theorem enum_iter_add (nb : String → List String) (allowed : String → Bool)
    (st : GeohashEnumerator) (m n : Nat) :
    enum_iter nb allowed st (m + n) = enum_iter nb allowed (enum_iter nb allowed st m) n := by
  induction m generalizing st with
  | zero => rw [Nat.zero_add]; rfl
  | succ k ih =>
    have h1 : k + 1 + n = (k + n) + 1 := by omega
    rw [h1]
    show enum_iter nb allowed (enum_step nb allowed st) (k + n)
      = enum_iter nb allowed (enum_iter nb allowed (enum_step nb allowed st) k) n
    exact ih (enum_step nb allowed st)

theorem enum_iter_inv (nb : String → List String) (allowed : String → Bool)
    (st : GeohashEnumerator) (n : Nat) (h : EnumInv st) :
    EnumInv (enum_iter nb allowed st n) := by
  induction n generalizing st with
  | zero => exact h
  | succ m ih => exact ih _ (enum_step_inv nb allowed st h)

theorem enum_iter_seen_mono (nb : String → List String) (allowed : String → Bool)
    (st : GeohashEnumerator) (n : Nat) (y : String) (hy : y ∈ st.geohashes_seen) :
    y ∈ (enum_iter nb allowed st n).geohashes_seen := by
  induction n generalizing st with
  | zero => exact hy
  | succ m ih => exact ih _ (enum_step_seen_mono nb allowed st y hy)

theorem enum_iter_stall (nb : String → List String) (allowed : String → Bool)
    (st : GeohashEnumerator) (h : st.geohashes_waiting = []) (n : Nat) :
    enum_iter nb allowed st n = st := by
  induction n with
  | zero => rfl
  | succ m ih =>
    rw [enum_iter_succ_out, ih, enum_step_halted nb allowed st h]

theorem enum_run_halted (nb : String → List String) (allowed : String → Bool)
    (st : GeohashEnumerator) (h : st.geohashes_waiting = []) (n : Nat) :
    enum_run nb allowed n st = [] := by
  cases n with
  | zero => rfl
  | succ m =>
    rcases st with ⟨seen, waiting⟩
    have h' : waiting = [] := h
    rw [h']
    rfl

theorem enum_run_cons (nb : String → List String) (allowed : String → Bool)
    (st : GeohashEnumerator) (g : String) (rest : List String)
    (h : st.geohashes_waiting = g :: rest) (n : Nat) :
    enum_run nb allowed (n + 1) st
      = g :: enum_run nb allowed n (enum_step nb allowed st) := by
  rcases st with ⟨seen, waiting⟩
  have h' : waiting = g :: rest := h
  rw [h']
  rw [enum_step_cons nb allowed ⟨seen, g :: rest⟩ g rest rfl]
  rfl

theorem enum_run_split (nb : String → List String) (allowed : String → Bool)
    (a b : Nat) (st : GeohashEnumerator) :
    enum_run nb allowed (a + b) st
      = enum_run nb allowed a st
        ++ enum_run nb allowed b (enum_iter nb allowed st a) := by
  induction a generalizing st with
  | zero => rw [Nat.zero_add]; rfl
  | succ k ih =>
    cases hw : st.geohashes_waiting with
    | nil =>
      rw [enum_run_halted nb allowed st hw, enum_run_halted nb allowed st hw,
        enum_iter_stall nb allowed st hw, enum_run_halted nb allowed st hw]
      rfl
    | cons g rest =>
      have h1 : k + 1 + b = (k + b) + 1 := by omega
      rw [h1, enum_run_cons nb allowed st g rest hw, enum_run_cons nb allowed st g rest hw]
      rw [ih (enum_step nb allowed st)]
      show _ = (g :: enum_run nb allowed k (enum_step nb allowed st))
        ++ enum_run nb allowed b (enum_iter nb allowed st (k + 1))
      rw [List.cons_append]
      have h2 : enum_iter nb allowed st (k + 1)
          = enum_iter nb allowed (enum_step nb allowed st) k := rfl
      rw [h2]

theorem enum_run_drain (nb : String → List String) (allowed : String → Bool) :
    ∀ (n : Nat) (st : GeohashEnumerator),
    (enum_iter nb allowed st n).geohashes_waiting = [] →
    ∀ x ∈ st.geohashes_waiting, x ∈ enum_run nb allowed n st := by
  intro n
  induction n with
  | zero =>
    intro st h x hx
    have h0 : st.geohashes_waiting = [] := h
    rw [h0] at hx
    simp at hx
  | succ m ih =>
    intro st h x hx
    cases hw : st.geohashes_waiting with
    | nil => rw [hw] at hx; simp at hx
    | cons g rest =>
      rw [enum_run_cons nb allowed st g rest hw]
      rw [hw] at hx
      rcases List.mem_cons.mp hx with h' | h'
      · rw [h']
        exact List.mem_cons_self _ _
      · refine List.mem_cons_of_mem _ (ih (enum_step nb allowed st) h x ?_)
        rw [enum_step_cons nb allowed st g rest hw]
        exact expand_waiting_mono allowed _ _ x h'

theorem enum_run_not_mem (nb : String → List String) (allowed : String → Bool) :
    ∀ (n : Nat) (st : GeohashEnumerator),
    EnumInv st → ∀ x, x ∈ st.geohashes_seen → x ∉ st.geohashes_waiting →
    x ∉ enum_run nb allowed n st := by
  intro n
  induction n with
  | zero =>
    intro st _ x _ _ h
    simp [enum_run] at h
  | succ m ih =>
    intro st hinv x hseen hwait
    cases hw : st.geohashes_waiting with
    | nil =>
      rw [enum_run_halted nb allowed st hw]
      simp
    | cons g rest =>
      rw [enum_run_cons nb allowed st g rest hw]
      intro hmem
      rcases List.mem_cons.mp hmem with h' | h'
      · rw [hw] at hwait
        exact hwait (by rw [h']; exact List.mem_cons_self _ _)
      · refine ih (enum_step nb allowed st) (enum_step_inv nb allowed st hinv) x
          (enum_step_seen_mono nb allowed st x hseen) ?_ h'
        rw [enum_step_cons nb allowed st g rest hw]
        intro hxw
        rcases expand_waiting_src allowed (nb g) ⟨st.geohashes_seen, rest⟩ x hxw with
          h2 | ⟨_, hns, _⟩
        · exact hwait (by rw [hw]; exact List.mem_cons_of_mem _ h2)
        · exact hns hseen

theorem enum_run_nodup (nb : String → List String) (allowed : String → Bool) :
    ∀ (n : Nat) (st : GeohashEnumerator),
    EnumInv st → (enum_run nb allowed n st).Nodup := by
  intro n
  induction n with
  | zero => intro st _; exact List.nodup_nil
  | succ m ih =>
    intro st hinv
    cases hw : st.geohashes_waiting with
    | nil =>
      rw [enum_run_halted nb allowed st hw]
      exact List.nodup_nil
    | cons g rest =>
      rw [enum_run_cons nb allowed st g rest hw]
      refine List.nodup_cons.mpr ⟨?_, ih _ (enum_step_inv nb allowed st hinv)⟩
      refine enum_run_not_mem nb allowed m (enum_step nb allowed st)
        (enum_step_inv nb allowed st hinv) g ?_ ?_
      · exact enum_step_seen_mono nb allowed st g
          (hinv.w_seen g (by rw [hw]; exact List.mem_cons_self _ _))
      · rw [enum_step_cons nb allowed st g rest hw]
        intro hgw
        rcases expand_waiting_src allowed (nb g) ⟨st.geohashes_seen, rest⟩ g hgw with
          h2 | ⟨_, hns, _⟩
        · have hnd := hinv.w_nodup
          rw [hw] at hnd
          exact (List.nodup_cons.mp hnd).1 h2
        · exact hns (hinv.w_seen g (by rw [hw]; exact List.mem_cons_self _ _))

theorem enum_nbhd_seen (nb : String → List String) (allowed : String → Bool) :
    ∀ (n : Nat) (st : GeohashEnumerator) (c c' : String),
    (enum_iter nb allowed st n).geohashes_waiting = [] →
    c ∈ st.geohashes_waiting → c' ∈ nb c → allowed c' = true →
    ∃ m, c' ∈ (enum_iter nb allowed st m).geohashes_seen := by
  intro n
  induction n with
  | zero =>
    intro st c c' h hc _ _
    have h0 : st.geohashes_waiting = [] := h
    rw [h0] at hc
    simp at hc
  | succ m ih =>
    intro st c c' h hc hnb hall
    cases hw : st.geohashes_waiting with
    | nil => rw [hw] at hc; simp at hc
    | cons g rest =>
      rw [hw] at hc
      rcases List.mem_cons.mp hc with h' | h'
      · refine ⟨1, ?_⟩
        show c' ∈ (enum_step nb allowed st).geohashes_seen
        rw [enum_step_cons nb allowed st g rest hw, ← h']
        exact expand_mem_seen allowed (nb c) _ c' hnb hall
      · have hcw : c ∈ (enum_step nb allowed st).geohashes_waiting := by
          rw [enum_step_cons nb allowed st g rest hw]
          exact expand_waiting_mono allowed _ _ c h'
        obtain ⟨k, hk⟩ := ih (enum_step nb allowed st) c c' h hcw hnb hall
        exact ⟨k + 1, hk⟩

theorem enum_seen_to_waiting (nb : String → List String) (allowed : String → Bool)
    (seed : String) :
    ∀ (n : Nat) (x : String),
    x ∈ (enum_iter nb allowed (GeohashEnumerator.init seed) n).geohashes_seen →
    ∃ m, x ∈ (enum_iter nb allowed (GeohashEnumerator.init seed) m).geohashes_waiting := by
  intro n
  induction n with
  | zero => intro x hx; exact ⟨0, hx⟩
  | succ m ih =>
    intro x hx
    rw [enum_iter_succ_out] at hx
    cases hw : (enum_iter nb allowed (GeohashEnumerator.init seed) m).geohashes_waiting with
    | nil =>
      rw [enum_step_halted nb allowed _ hw] at hx
      exact ih x hx
    | cons g rest =>
      rw [enum_step_cons nb allowed _ g rest hw] at hx
      rcases expand_seen_src allowed (nb g) _ x hx with h' | h'
      · exact ih x h'
      · refine ⟨m + 1, ?_⟩
        rw [enum_iter_succ_out, enum_step_cons nb allowed _ g rest hw]
        exact h'

theorem enum_run_sound (nb : String → List String) (allowed : String → Bool)
    (P : String → Prop) (hall : ∀ y, allowed y = true → P y) :
    ∀ (n : Nat) (st : GeohashEnumerator), (∀ y ∈ st.geohashes_waiting, P y) →
    ∀ x ∈ enum_run nb allowed n st, P x := by
  intro n
  induction n with
  | zero => intro st _ x hx; simp [enum_run] at hx
  | succ m ih =>
    intro st hws x hx
    cases hw : st.geohashes_waiting with
    | nil => rw [enum_run_halted nb allowed st hw] at hx; simp at hx
    | cons g rest =>
      rw [enum_run_cons nb allowed st g rest hw] at hx
      rcases List.mem_cons.mp hx with h' | h'
      · rw [h']
        exact hws g (by rw [hw]; exact List.mem_cons_self _ _)
      · refine ih (enum_step nb allowed st) ?_ x h'
        intro y hy
        rw [enum_step_cons nb allowed st g rest hw] at hy
        rcases expand_waiting_src allowed (nb g) ⟨st.geohashes_seen, rest⟩ y hy with
          h2 | ⟨ha, _, _⟩
        · exact hws y (by rw [hw]; exact List.mem_cons_of_mem _ h2)
        · exact hall y ha

/-- Every seen cell is the seed or allow-listed (hence inside the finite
bound `S`). -/
def SeenBound (seed : String) (S : Finset String) (st : GeohashEnumerator) : Prop :=
  ∀ x ∈ st.geohashes_seen, x = seed ∨ x ∈ S

theorem enum_step_seen_bound (nb : String → List String) (allowed : String → Bool)
    (seed : String) (S : Finset String) (hS : ∀ x, allowed x = true → x ∈ S)
    (st : GeohashEnumerator) (h : SeenBound seed S st) :
    SeenBound seed S (enum_step nb allowed st) := by
  cases hw : st.geohashes_waiting with
  | nil => rw [enum_step_halted nb allowed st hw]; exact h
  | cons g rest =>
    rw [enum_step_cons nb allowed st g rest hw]
    intro x hx
    rcases expand_seen_bound allowed (nb g) ⟨st.geohashes_seen, rest⟩ x hx with h' | h'
    · exact h x h'
    · exact Or.inr (hS x h')

theorem seen_len_le (seed : String) (S : Finset String) (st : GeohashEnumerator)
    (hnd : st.geohashes_seen.Nodup) (hb : SeenBound seed S st) :
    st.geohashes_seen.length ≤ S.card + 1 := by
  have hsub : st.geohashes_seen.toFinset ⊆ insert seed S := by
    intro x hx
    rw [List.mem_toFinset] at hx
    rcases hb x hx with h | h
    · rw [h]
      exact Finset.mem_insert_self _ _
    · exact Finset.mem_insert_of_mem h
  calc st.geohashes_seen.length
      = st.geohashes_seen.toFinset.card := (List.toFinset_card_of_nodup hnd).symm
    _ ≤ (insert seed S).card := Finset.card_le_card hsub
    _ ≤ S.card + 1 := Finset.card_insert_le _ _

/-- Termination measure of the traversal: unseen-budget (weighted) plus
frontier length. -/
def enum_measure (S : Finset String) (st : GeohashEnumerator) : Nat :=
  2 * (S.card + 1 - st.geohashes_seen.length) + st.geohashes_waiting.length

theorem enum_measure_dec (nb : String → List String) (allowed : String → Bool)
    (seed : String) (S : Finset String) (hS : ∀ x, allowed x = true → x ∈ S)
    (st : GeohashEnumerator) (hinv : EnumInv st) (hb : SeenBound seed S st)
    (g : String) (rest : List String) (hw : st.geohashes_waiting = g :: rest) :
    enum_measure S (enum_step nb allowed st) < enum_measure S st := by
  rw [enum_step_cons nb allowed st g rest hw]
  have hmid : EnumInv (⟨st.geohashes_seen, rest⟩ : GeohashEnumerator) := by
    refine ⟨?_, ?_, hinv.s_nodup⟩
    · have hnd := hinv.w_nodup
      rw [hw] at hnd
      exact hnd.of_cons
    · intro x hx
      exact hinv.w_seen x (by rw [hw]; exact List.mem_cons_of_mem _ hx)
  have hlen : (expand allowed (nb g) ⟨st.geohashes_seen, rest⟩).geohashes_waiting.length
      + st.geohashes_seen.length
      = rest.length + (expand allowed (nb g) ⟨st.geohashes_seen, rest⟩).geohashes_seen.length :=
    expand_len allowed (nb g) ⟨st.geohashes_seen, rest⟩
  have hmono : st.geohashes_seen.length
      ≤ (expand allowed (nb g) ⟨st.geohashes_seen, rest⟩).geohashes_seen.length :=
    expand_seen_len_mono allowed (nb g) ⟨st.geohashes_seen, rest⟩
  have hnd' := (expand_inv allowed (nb g) ⟨st.geohashes_seen, rest⟩ hmid).s_nodup
  have hb' : SeenBound seed S (expand allowed (nb g) ⟨st.geohashes_seen, rest⟩) := by
    intro x hx
    rcases expand_seen_bound allowed (nb g) ⟨st.geohashes_seen, rest⟩ x hx with h' | h'
    · exact hb x h'
    · exact Or.inr (hS x h')
  have hle := seen_len_le seed S _ hnd' hb'
  have hle0 := seen_len_le seed S st hinv.s_nodup hb
  rw [enum_measure, enum_measure, hw, List.length_cons]
  omega

theorem enum_halts (nb : String → List String) (allowed : String → Bool)
    (seed : String) (S : Finset String) (hS : ∀ x, allowed x = true → x ∈ S) :
    ∀ (k : Nat) (st : GeohashEnumerator), EnumInv st → SeenBound seed S st →
    enum_measure S st ≤ k → (enum_iter nb allowed st k).geohashes_waiting = [] := by
  intro k
  induction k with
  | zero =>
    intro st _ _ hm
    cases hw : st.geohashes_waiting with
    | nil => exact hw
    | cons g rest =>
      rw [enum_measure, hw, List.length_cons] at hm
      omega
  | succ m ih =>
    intro st hinv hb hm
    cases hw : st.geohashes_waiting with
    | nil =>
      rw [enum_iter_stall nb allowed st hw]
      exact hw
    | cons g rest =>
      show (enum_iter nb allowed (enum_step nb allowed st) m).geohashes_waiting = []
      refine ih (enum_step nb allowed st) (enum_step_inv nb allowed st hinv)
        (enum_step_seen_bound nb allowed seed S hS st hb) ?_
      have := enum_measure_dec nb allowed seed S hS st hinv hb g rest hw
      omega

theorem reach_allowed_seen (nb : String → List String) (allowed : String → Bool)
    (seed : String) (c : String) (hc : reach_allowed nb allowed seed c)
    (N : Nat)
    (hN : (enum_iter nb allowed (GeohashEnumerator.init seed) N).geohashes_waiting = []) :
    ∃ n, c ∈ (enum_iter nb allowed (GeohashEnumerator.init seed) n).geohashes_seen := by
  induction hc with
  | refl => exact ⟨0, List.mem_cons_self _ _⟩
  | step a b hr hnb hall ih =>
    obtain ⟨n, hn⟩ := ih
    obtain ⟨m, hm⟩ := enum_seen_to_waiting nb allowed seed n a hn
    have hhalt2 : (enum_iter nb allowed
        (enum_iter nb allowed (GeohashEnumerator.init seed) m) N).geohashes_waiting = [] := by
      rw [← enum_iter_add, show m + N = N + m from Nat.add_comm m N, enum_iter_add,
        enum_iter_stall nb allowed _ hN]
      exact hN
    obtain ⟨k, hk⟩ := enum_nbhd_seen nb allowed N _ a b hhalt2 hm hnb hall
    refine ⟨m + k, ?_⟩
    rw [enum_iter_add]
    exact hk

theorem seen_in_total_run (nb : String → List String) (allowed : String → Bool)
    (seed : String) (N : Nat)
    (hN : (enum_iter nb allowed (GeohashEnumerator.init seed) N).geohashes_waiting = [])
    (x : String) (n : Nat)
    (hx : x ∈ (enum_iter nb allowed (GeohashEnumerator.init seed) n).geohashes_seen) :
    x ∈ enum_run nb allowed N (GeohashEnumerator.init seed) := by
  obtain ⟨m, hm⟩ := enum_seen_to_waiting nb allowed seed n x hx
  have hhalt2 : (enum_iter nb allowed
      (enum_iter nb allowed (GeohashEnumerator.init seed) m) N).geohashes_waiting = [] := by
    rw [← enum_iter_add, show m + N = N + m from Nat.add_comm m N, enum_iter_add,
      enum_iter_stall nb allowed _ hN]
    exact hN
  have hdrain := enum_run_drain nb allowed N _ hhalt2 x hm
  have hstab : enum_run nb allowed (m + N) (GeohashEnumerator.init seed)
      = enum_run nb allowed N (GeohashEnumerator.init seed) := by
    rw [show m + N = N + m from Nat.add_comm m N,
      enum_run_split nb allowed N m (GeohashEnumerator.init seed),
      enum_run_halted nb allowed _ hN, List.append_nil]
  rw [← hstab, enum_run_split nb allowed m N (GeohashEnumerator.init seed)]
  exact List.mem_append_right _ hdrain

/-- C1 (amended): for every neighbour collaborator, seed and allow-list whose
set of allow-listed cells is finite (bounded by the finite set `S`), the
enumerator's output is finite — after `N` pulls the frontier is empty and
further fuel adds nothing — it contains every allow-listed cell reachable
from the seed through a chain of neighbour steps whose cells after the seed
are all allow-listed, and no identifier is ever produced twice. -/
theorem enumerator_finite_complete_nodup (nb : String → List String)
    (allowed : String → Bool) (seed : String) (S : Finset String)
    (hS : ∀ x, allowed x = true → x ∈ S) :
    ∃ N, ((enum_iter nb allowed (GeohashEnumerator.init seed) N).geohashes_waiting = []
        ∧ ∀ m, N ≤ m → enum_run nb allowed m (GeohashEnumerator.init seed)
            = enum_run nb allowed N (GeohashEnumerator.init seed))
      ∧ (∀ c, reach_allowed nb allowed seed c
          → c ∈ enum_run nb allowed N (GeohashEnumerator.init seed))
      ∧ ∀ n, (enum_run nb allowed n (GeohashEnumerator.init seed)).Nodup := by
  have hinv : EnumInv (GeohashEnumerator.init seed) :=
    ⟨List.nodup_singleton _, fun x hx => hx, List.nodup_singleton _⟩
  have hbound : SeenBound seed S (GeohashEnumerator.init seed) := by
    intro x hx
    exact Or.inl (by simpa [GeohashEnumerator.init] using hx)
  have hN := enum_halts nb allowed seed S hS
    (enum_measure S (GeohashEnumerator.init seed)) _ hinv hbound le_rfl
  refine ⟨enum_measure S (GeohashEnumerator.init seed), ⟨hN, ?_⟩, ?_, ?_⟩
  · intro m hm
    obtain ⟨j, rfl⟩ := Nat.exists_eq_add_of_le hm
    rw [enum_run_split nb allowed _ j (GeohashEnumerator.init seed),
      enum_run_halted nb allowed _ hN, List.append_nil]
  · intro c hc
    obtain ⟨n, hn⟩ := reach_allowed_seen nb allowed seed c hc _ hN
    exact seen_in_total_run nb allowed seed _ hN c n hn
  · intro n
    exact enum_run_nodup nb allowed n _ hinv

/-- The neighbour relation of the C1 counterexample: a three-cell path. -/
def ctr_nb (x : String) : List String :=
  if x = "aaa" then ["bbb"]
  else if x = "bbb" then ["aaa", "ccc"]
  else if x = "ccc" then ["bbb"] else []

/-- The allow-list of the C1 counterexample: the path's endpoints only. -/
def ctr_allowed (x : String) : Bool := decide (x ∈ (["aaa", "ccc"] : List String))

/-- Counterexample for C1 as stated: the cell `"ccc"` is allow-listed and
reachable from the seed `"aaa"` by repeated neighbour adjacency (through
`"bbb"`), yet the enumerator is exhausted after one pull — its complete
output is `["aaa"]` and `"ccc"` is never produced, because the only path
runs through the pruned cell `"bbb"`. -/
theorem enumerator_counterexample :
    reach_adj ctr_nb "aaa" "ccc"
    ∧ ctr_allowed "ccc" = true
    ∧ (enum_iter ctr_nb ctr_allowed (GeohashEnumerator.init "aaa") 1).geohashes_waiting = []
    ∧ enum_run ctr_nb ctr_allowed 1 (GeohashEnumerator.init "aaa") = ["aaa"]
    ∧ "ccc" ∉ enum_run ctr_nb ctr_allowed 1 (GeohashEnumerator.init "aaa") := by
  refine ⟨?_, by rfl, by rfl, by rfl, by decide⟩
  exact reach_adj.step "bbb" "ccc"
    (reach_adj.step "aaa" "bbb" reach_adj.refl (by decide)) (by decide)

/-- The neighbour relation of the C1 witness: two mutually adjacent cells. -/
def wit_nb (x : String) : List String :=
  if x = "aaa" then ["aab"] else if x = "aab" then ["aaa"] else []

/-- The finite bound on the witness's allow-listed cells. -/
def wit_S : Finset String := {"aaa", "aab"}

/-- The allow-list of the C1 witness. -/
def wit_allowed (x : String) : Bool := decide (x ∈ (["aaa", "aab"] : List String))

/-- Witness for C1: the amended theorem applied to a concrete two-cell
traversal. -/
theorem enumerator_finite_complete_nodup_witness :
    ∃ N, ((enum_iter wit_nb wit_allowed (GeohashEnumerator.init "aaa") N).geohashes_waiting = []
        ∧ ∀ m, N ≤ m → enum_run wit_nb wit_allowed m (GeohashEnumerator.init "aaa")
            = enum_run wit_nb wit_allowed N (GeohashEnumerator.init "aaa"))
      ∧ (∀ c, reach_allowed wit_nb wit_allowed "aaa" c
          → c ∈ enum_run wit_nb wit_allowed N (GeohashEnumerator.init "aaa"))
      ∧ ∀ n, (enum_run wit_nb wit_allowed n (GeohashEnumerator.init "aaa")).Nodup :=
  enumerator_finite_complete_nodup wit_nb wit_allowed "aaa" wit_S
    (fun x hx => by
      have h2 : x ∈ (["aaa", "aab"] : List String) := of_decide_eq_true hx
      simpa [wit_S] using h2)

/-- C5: for every allow-list of 3-character prefixes, the seed is always the
first identifier produced — even when its own prefix is not allow-listed —
and every identifier produced other than the seed has its 3-character prefix
in the allow-list, so a non-allow-listed neighbour is never produced,
directly or by further expansion. -/
theorem seed_visited_and_pruning (nb : String → List String) (allow : List String)
    (seed : String) (n : Nat) :
    (enum_run nb (pref_allowed allow) (n + 1) (GeohashEnumerator.init seed)).head?
      = some seed
    ∧ ∀ x ∈ enum_run nb (pref_allowed allow) n (GeohashEnumerator.init seed),
        x = seed ∨ (x.take 3) ∈ allow := by
  constructor
  · rfl
  · intro x hx
    refine enum_run_sound nb (pref_allowed allow)
      (fun y => y = seed ∨ (y.take 3) ∈ allow) ?_ n (GeohashEnumerator.init seed) ?_ x hx
    · intro y hy
      exact Or.inr (of_decide_eq_true hy)
    · intro y hy
      exact Or.inl (by simpa [GeohashEnumerator.init] using hy)
